import Mathlib

/-!
Verification development for the gemma-embeddings operational scripts
(`autotune_cloudflare.py`, `embed_tweets.py`, `run.py`).

Strings are modelled as `List Char`.  Python regex `\s` is modelled by the
ASCII whitespace characters (space, tab, newline, carriage return, vertical
tab, form feed); all inputs appearing in the claims use these.  Real-valued
quantities (latencies, throughput, trial durations) are modelled as `ℚ`.
Recursions that Python performs with loops over shrinking suffixes are given
an explicit structural fuel argument equal to the list length, so every
definition is executable by kernel reduction.
-/

namespace GemmaEmb

/-- Python regex `\s` (ASCII range), used by `re.sub(r'\s+', ' ', text)` and
`str.strip()` in `embed_tweets.py`. -/
def isSp (c : Char) : Bool :=
  c = ' ' || c = '\t' || c = '\n' || c = '\r' || c = '\x0b' || c = '\x0c'

/-- Attempt to match the scheme part `https?://` of the regex
`https?://\S+` at the head of `l`; returns the rest of the list after the
scheme on success.  The two alternatives cannot both match at a position. -/
def schemeRest (l : List Char) : Option (List Char) :=
  if l.take 8 = "https://".toList then some (l.drop 8)
  else if l.take 7 = "http://".toList then some (l.drop 7)
  else none

/-- Attempt to match the full regex `https?://\S+` at the head of `l`
(scheme followed by at least one non-whitespace character); returns the rest
of the list after the complete match on success. -/
def urlRest (l : List Char) : Option (List Char) :=
  match schemeRest l with
  | none => none
  | some rest =>
    if rest.takeWhile (fun c => !(isSp c)) = [] then none
    else some (rest.dropWhile (fun c => !(isSp c)))

/-- Python's `re.sub(r'https?://\S+', '', text)`: left-to-right scan removing
non-overlapping matches, resuming after each match.  `fuel` bounds the scan
(callers pass the list length, which always suffices since a match consumes
at least eight characters). -/
def removeUrlsF : Nat → List Char → List Char
  | 0, l => l
  | _, [] => []
  | fuel + 1, c :: cs =>
    match urlRest (c :: cs) with
    | some rest => removeUrlsF fuel rest
    | none => c :: removeUrlsF fuel cs

/-- The full `re.sub(r'https?://\S+', '', text)` on the whole string. -/
def removeUrls (l : List Char) : List Char :=
  removeUrlsF l.length l

/-- Model of `text.replace('@', '').replace('#', '')`. -/
def stripAtHash (l : List Char) : List Char :=
  l.filter (fun c => c ≠ '@' && c ≠ '#')

/-- Model of `re.sub(r'\s+', ' ', text)`: every maximal run of whitespace becomes a
single space.  Structured with a two-character lookahead: a whitespace
character emits a `' '` exactly when it ends its run. -/
def collapseWs : List Char → List Char
  | [] => []
  | [c] => if isSp c then [' '] else [c]
  | c :: d :: cs =>
    if isSp c then
      if isSp d then collapseWs (d :: cs) else ' ' :: collapseWs (d :: cs)
    else c :: collapseWs (d :: cs)

/-- Model of `text.strip()`: drop leading and trailing whitespace. -/
def stripWs (l : List Char) : List Char :=
  (l.dropWhile isSp).rdropWhile isSp

/-- The function `clean_tweet_text` from `embed_tweets.py`:
```
if not text: return ""
text = re.sub(r'https?://\S+', '', text)
text = text.replace('@', '').replace('#', '')
text = re.sub(r'\s+', ' ', text).strip()
return text[:1000]
``` -/
def clean_tweet_text (l : List Char) : List Char :=
  if l = [] then []
  else (stripWs (collapseWs (stripAtHash (removeUrls l)))).take 1000

/-- Whether any position of `l` carries a full match of `https?://\S+`. -/
def hasUrl : List Char → Bool
  | [] => false
  | c :: cs => (urlRest (c :: cs)).isSome || hasUrl cs

/-- Whether the last character of `l` is whitespace. -/
def endsSp (l : List Char) : Bool :=
  match l.getLast? with
  | some c => isSp c
  | none => false

/-! ### Batcher (`gen_batches` in `autotune_cloudflare.py`, batch count in
`run.py`) -/

/-- Fuel-indexed slicing loop: `[docs[i : i + k] for i in range(0, len(docs), k)]`.
Callers pass `fuel = docs.length`; with `0 < k` each step strictly shrinks
the list, so the fuel suffices (Python requires a positive `range` step). -/
def sliceAux (k : Nat) : Nat → List α → List (List α)
  | 0, _ => []
  | _ + 1, [] => []
  | fuel + 1, d :: ds => (d :: ds).take k :: sliceAux k fuel ((d :: ds).drop k)

/-- The function `gen_batches` from `autotune_cloudflare.py`, parameterised by the
document list (the source builds it from `synth_doc()`):
`return [docs[i : i + batch_size] for i in range(0, len(docs), batch_size)]`. -/
def gen_batches (docs : List α) (k : Nat) : List (List α) :=
  sliceAux k docs.length docs

/-- From `run.py`: `total_batches = NUM_DOCS // BATCH + (1 if NUM_DOCS % BATCH else 0)`. -/
def total_batches (n k : Nat) : Nat :=
  n / k + (if n % k ≠ 0 then 1 else 0)

/-! ### Warm-up trim (`run_trial` in `autotune_cloudflare.py`) -/

/-- The trim count `trim = min(int(len(lat_ms) * (WARMUP_SECS / max(TRIAL_SECS, 1))), len(lat_ms) // 4)`.
`int()` truncates toward zero; the value is nonnegative in the branch where
it is used (`WARMUP_SECS > 0`), so it is the floor. -/
def trimCount (n : Nat) (warmup trial : ℚ) : Nat :=
  min (Int.toNat ⌊(n : ℚ) * (warmup / max trial 1)⌋) (n / 4)

/-- The warm-up trim of `run_trial`:
```
if len(lat_ms) > 5 and WARMUP_SECS > 0:
    trim = min(...)
    lat_use = lat_ms[trim:]
else:
    lat_use = lat_ms
``` -/
def latUse (lat : List ℚ) (warmup trial : ℚ) : List ℚ :=
  if lat.length > 5 ∧ warmup > 0 then lat.drop (trimCount lat.length warmup trial)
  else lat

/-! ### Trial selection (`main` in `autotune_cloudflare.py`) -/

/-- The metrics dict returned by `run_trial`. -/
structure Metrics where
  batch : Nat
  conc : Nat
  docs : Nat
  tokens : Nat
  docs_s : ℚ
  toks_s : ℚ
  p50_s : ℚ
  p95_s : ℚ
  errors : Nat
  dur : ℚ
deriving DecidableEq, Repr

/-- The qualification test `ok = (metrics["p95_s"] <= P95_TARGET) and (metrics["errors"] == 0)`. -/
def trialOk (m : Metrics) (target : ℚ) : Bool :=
  decide (m.p95_s ≤ target) && decide (m.errors = 0)

/-- The update `if ok and (best is None or metrics["toks_s"] > best["toks_s"]): best = metrics`. -/
def updateBest (target : ℚ) (best : Option Metrics) (m : Metrics) : Option Metrics :=
  if trialOk m target then
    match best with
    | none => some m
    | some b => if b.toks_s < m.toks_s then some m else some b
  else best

/-- The `best` variable after the grid loop of `main`, as a fold over the
trial results in grid order. -/
def selectBest (target : ℚ) (results : List Metrics) : Option Metrics :=
  results.foldl (updateBest target) none

/-- The final console report of `main`: either the 🏆 line naming the best
combination, or the explicit ❗ "no combo met the target" line. -/
inductive Report where
  | bestCombo (m : Metrics)
  | noComboMet
deriving DecidableEq, Repr

/-- The choice `if best: print(🏆 ...) else: print(❗ No combo met ...)`. -/
def finalReport (target : ℚ) (results : List Metrics) : Report :=
  match selectBest target results with
  | some b => .bestCombo b
  | none => .noComboMet

/-! ### The `embed_tweets.py` worker: retry loop, response handling,
Parquet persistence -/

/-- JSON values as returned by the TEI endpoint (only numbers and arrays
occur in embedding responses). -/
inductive JVal where
  | num (q : ℚ)
  | arr (l : List JVal)

/-- Unwrapping `emb[0] if isinstance(emb, list) and len(emb) == 1 and isinstance(emb[0], list) else emb`:
unwrap a singleton-wrapped vector. -/
def unwrapEmb : JVal → JVal
  | .arr [.arr l] => .arr l
  | e => e

/-- Vector extraction: `pyarrow` accepts a value for a `list_(float32())` column only if it is a
list of numbers; this extracts the vector or fails. -/
def asVec : JVal → Option (List ℚ)
  | .arr l => l.mapM (fun v => match v with | .num q => some q | _ => none)
  | _ => none

/-- A document `_id` from the input JSON: either a plain string-like value
(normalised with `str(...)`, modelled as the string itself) or the nested
`{"$oid": ...}` form. -/
inductive DocId where
  | plain (s : List Char)
  | oid (s : List Char)
deriving DecidableEq, Repr

/-- The id normalisation in `worker`: `doc['_id']['$oid']` when nested,
otherwise `str(doc['_id'])`. -/
def normalizeId : DocId → List Char
  | .plain s => s
  | .oid s => s

/-- An input record with `_id` and `text` fields (the producer only enqueues
records having both). -/
structure RawDoc where
  _id : DocId
  text : List Char
deriving DecidableEq, Repr

/-- The filtering pass of `worker`: keep documents with truthy `text` whose
cleaned text is non-empty, replacing the text by its cleaned form. -/
def validDocs (batch : List RawDoc) : List RawDoc :=
  batch.filterMap (fun d =>
    if d.text = [] then none
    else
      let cleaned := clean_tweet_text d.text
      if cleaned = [] then none else some ⟨d._id, cleaned⟩)

/-- The list `texts_to_embed = [doc['text'] for doc in valid_docs]`. -/
def textsToEmbed (batch : List RawDoc) : List (List Char) :=
  (validDocs batch).map (·.text)

/-- Observable outcome of the `for i in range(max_retries)` loop of `worker`:
the `embeddings` variable (initialised to `[]`), the number of attempts
issued, the total seconds spent in `await asyncio.sleep(5)` calls, and the
number of "Max retries reached" error records. -/
structure RetryOutcome where
  embeddings : List JVal
  attempts : Nat
  sleepSeconds : Nat
  errorLogs : Nat

/-- One client behaviour per attempt index: an exception / non-success
status (`Except.error`) or a decoded JSON body. -/
def AttemptClient : Type := Nat → Except Unit (List JVal)

/-- The retry loop from iteration `i` with `fuel` iterations remaining
(`fuel = max_retries - i` at every call).  A successful attempt breaks out;
a failed attempt sleeps 5 seconds and, on the last iteration, records the
"Max retries reached" error. -/
def retryGo (client : AttemptClient) (maxRetries : Nat) : Nat → Nat → RetryOutcome
  | 0, i => ⟨[], i, 0, 0⟩
  | fuel + 1, i =>
    match client i with
    | .ok e => ⟨e, i + 1, 0, 0⟩
    | .error _ =>
      let rest := retryGo client maxRetries fuel (i + 1)
      ⟨rest.embeddings, rest.attempts, rest.sleepSeconds + 5,
        rest.errorLogs + (if i = maxRetries - 1 then 1 else 0)⟩

/-- The whole `for i in range(max_retries)` loop. -/
def retryLoop (client : AttemptClient) (maxRetries : Nat) : RetryOutcome :=
  retryGo client maxRetries maxRetries 0

/-- Table construction `pa.Table.from_pydict({'id': pa.array(ids, string()), 'embedding': pa.array(processed, list_(float32()))})`:
fails (raises, caught by the worker) unless every embedding is a numeric
vector and the two columns have equal length. -/
def from_pydict (ids : List (List Char)) (embs : List JVal) :
    Option (List (List Char × List ℚ)) :=
  match embs.mapM asVec with
  | none => none
  | some vecs => if ids.length = vecs.length then some (ids.zip vecs) else none

/-- Observable outcome of one `worker` iteration on a dequeued batch in
`embed_tweets.py`: the Parquet table moved into the final directory (if
any), retry-loop accounting, and whether the batch was put back on the
queue (the code never re-queues). -/
structure WorkerResult where
  persisted : Option (List (List Char × List ℚ))
  errorLogs : Nat
  sleepSeconds : Nat
  attempts : Nat
  requeued : Bool
deriving DecidableEq

/-- The body of `worker` in `embed_tweets.py` for one non-terminal batch:
filter/clean, retry the request, skip on empty result, unwrap singleton
vectors, build and persist the Parquet table (persistence fails exactly when
table construction does). -/
def processBatch (client : AttemptClient) (maxRetries : Nat)
    (batch : List RawDoc) : WorkerResult :=
  let valid := validDocs batch
  if valid = [] then ⟨none, 0, 0, 0, false⟩
  else
    let ids := valid.map (fun d => normalizeId d._id)
    let r := retryLoop client maxRetries
    match r.embeddings with
    | [] => ⟨none, r.errorLogs, r.sleepSeconds, r.attempts, false⟩
    | e :: es =>
      let processed := (e :: es).map unwrapEmb
      match from_pydict ids processed with
      | some table => ⟨some table, r.errorLogs, r.sleepSeconds, r.attempts, false⟩
      | none => ⟨none, r.errorLogs, r.sleepSeconds, r.attempts, false⟩

/-! ### The `autotune_cloudflare.py` worker body (single attempt, no retry) -/

/-- Samples appended by one `worker` iteration of `run_trial` for one batch:
`err_ctr`, `lat_ms`, `tok_ctr` and `doc_ctr` appends. -/
structure ATOutcome where
  errAppends : Nat
  latAppends : Nat
  tokAppends : Nat
  docAppends : Nat
deriving DecidableEq, Repr

/-- One attempt of `worker` in `run_trial`, in two phases: either the
request (`session.post` / entering the response) raises before any status is
seen, or a status code arrives and the subsequent body read inside the same
`try` (`await r.text()` in the non-200 branch, `await r.read()` in the 200
branch) either succeeds or itself raises. -/
inductive ATResp where
  | raise
  | status (code : Nat) (bodyRead : Except Unit Unit)

/-- The request/accounting part of `worker` in `run_trial`.  On a non-200
status the branch appends to `err_ctr` immediately, before reading the error
body; if that body read raises, control reaches the outer `except`, which
appends to `err_ctr` a second time.  A raising request, or a 200 response
whose drain raises, appends once; a drained 200 response appends nothing.
The latency/token/doc samples are appended after the `try`/`except` exactly
once in every case. -/
def autotuneWorkerBatch : ATResp → ATOutcome
  | .raise => ⟨1, 1, 1, 1⟩
  | .status code bodyRead =>
    if code ≠ 200 then
      match bodyRead with
      | .ok _ => ⟨1, 1, 1, 1⟩
      | .error _ => ⟨1 + 1, 1, 1, 1⟩
    else
      match bodyRead with
      | .ok _ => ⟨0, 1, 1, 1⟩
      | .error _ => ⟨1, 1, 1, 1⟩

/-! ### The dispatch queue / worker-pool shutdown protocol (C1)

A small-step interleaving model of the producer / bounded-queue / worker
pattern shared by `run_trial` (`autotune_cloudflare.py`), `producer`/`worker`
(`run.py`) and the producer/worker of `process_embeddings_from_file`
(`embed_tweets.py`).  The step relation includes every action any of the
three scripts can take (producing a batch, abandoning the rest of the source
at the trial deadline, enqueuing a poison pill once the source is exhausted,
a worker dequeuing a batch or a pill, a worker finishing a batch); the
variants that additionally `await q.join()` before the pills only restrict
this relation, so every state they reach is reachable here. -/

/-- A worker is waiting on `q.get()`, processing a batch, or has returned
after dequeuing the terminal marker. -/
inductive WStatus (B : Type) where
  | idle
  | busy (b : B)
  | done
deriving DecidableEq, Repr

/-- Whether a worker has returned. -/
def WStatus.isDone : WStatus B → Bool
  | .done => true
  | _ => false

/-- Global state: batches the producer has not yet enqueued, terminal
markers not yet enqueued (one per worker), the FIFO queue contents (front
first), and the worker statuses. -/
structure DState (B : Type) where
  prod : List B
  pills : Nat
  queue : List (Option B)
  ws : List (WStatus B)
deriving DecidableEq, Repr

/-- Number of workers that have returned. -/
def countDone (ws : List (WStatus B)) : Nat :=
  ws.countP (fun st => st.isDone)

/-- Interleaving steps of producer and workers over the bounded queue of
capacity `cap`. -/
inductive DStep (cap : Nat) : DState B → DState B → Prop where
  | put (b : B) (rest : List B) (pills : Nat) (queue : List (Option B))
      (ws : List (WStatus B)) (hcap : queue.length < cap) :
      DStep cap ⟨b :: rest, pills, queue, ws⟩ ⟨rest, pills, queue ++ [some b], ws⟩
  | stop (b : B) (rest : List B) (pills : Nat) (queue : List (Option B))
      (ws : List (WStatus B)) :
      DStep cap ⟨b :: rest, pills, queue, ws⟩ ⟨[], pills, queue, ws⟩
  | pill (p : Nat) (queue : List (Option B)) (ws : List (WStatus B))
      (hcap : queue.length < cap) :
      DStep cap ⟨[], p + 1, queue, ws⟩ ⟨[], p, queue ++ [none], ws⟩
  | take (prod : List B) (pills : Nat) (b : B) (queue : List (Option B))
      (ws : List (WStatus B)) (i : Nat) (hidle : ws[i]? = some .idle) :
      DStep cap ⟨prod, pills, some b :: queue, ws⟩ ⟨prod, pills, queue, ws.set i (.busy b)⟩
  | takePill (prod : List B) (pills : Nat) (queue : List (Option B))
      (ws : List (WStatus B)) (i : Nat) (hidle : ws[i]? = some .idle) :
      DStep cap ⟨prod, pills, none :: queue, ws⟩ ⟨prod, pills, queue, ws.set i .done⟩
  | finish (prod : List B) (pills : Nat) (queue : List (Option B))
      (ws : List (WStatus B)) (i : Nat) (b : B) (hbusy : ws[i]? = some (.busy b)) :
      DStep cap ⟨prod, pills, queue, ws⟩ ⟨prod, pills, queue, ws.set i .idle⟩

/-- Initial state: the whole source pending, one pill per worker pending, an
empty queue, all workers waiting. -/
def DInit (batches : List B) (w : Nat) : DState B :=
  ⟨batches, w, [], List.replicate w .idle⟩

/-- Reachability from the initial state under any interleaving. -/
def DReach (cap : Nat) (batches : List B) (w : Nat) (s : DState B) : Prop :=
  Relation.ReflTransGen (DStep cap) (DInit batches w) s

/-- Number of terminal markers currently in the queue. -/
def countNone (q : List (Option B)) : Nat :=
  q.countP (fun x => x.isNone)

/-- Inductive invariant: the queue is batches followed by terminal markers;
markers appear in the queue only once the source is exhausted and the
producer has started handing out pills; pills pending, markers queued and
workers finished always account for exactly one marker per worker. -/
def DInv (w : Nat) (s : DState B) : Prop :=
  (∃ (bs : List B) (k : Nat), s.queue = List.map some bs ++ List.replicate k none) ∧
  ((0 < countNone s.queue ∨ s.pills < w) → s.prod = []) ∧
  s.pills + countNone s.queue + countDone s.ws = w ∧
  s.ws.length = w

/-! ### 95th percentile (`np.percentile(lat_use, 95)` in `run_trial`) -/

/-- Ascending sort of the samples (numpy sorts before interpolating). -/
def sortQ (l : List ℚ) : List ℚ :=
  List.insertionSort (· ≤ ·) l

/-- Model of `np.percentile(l, 95)` with the default linear interpolation: the value
at fractional position `95/100 * (n - 1)` of the sorted samples, i.e. with
`k = 95*(n-1) / 100` and `γ = (95*(n-1) mod 100) / 100`, the value
`(1 - γ) * s[k] + γ * s[k+1]` (clamped to `s[k]` at the top index).
`run_trial` guards the empty case separately (`if lat_use else 0.0`). -/
def np_percentile95 (l : List ℚ) : ℚ :=
  if l.length = 0 then 0
  else
    (1 - ((95 * (l.length - 1) % 100 : Nat) : ℚ) / 100) *
        (sortQ l).getD (95 * (l.length - 1) / 100) 0 +
      (((95 * (l.length - 1) % 100 : Nat) : ℚ) / 100) *
        (sortQ l).getD (95 * (l.length - 1) / 100 + 1)
          ((sortQ l).getD (95 * (l.length - 1) / 100) 0)

end GemmaEmb

namespace GemmaEmb

/-! ## Helper lemmas for the batcher (C5) -/

theorem sliceAux_nil (k : Nat) : ∀ fuel : Nat, sliceAux k fuel ([] : List α) = []
  | 0 => rfl
  | _ + 1 => rfl

theorem drop_cons_length_le {α : Type _} (k fuel : Nat) (d : α) (ds : List α)
    (h : (d :: ds).length ≤ fuel + 1) (hk : 0 < k) :
    ((d :: ds).drop k).length ≤ fuel := by
  rw [List.length_drop]
  simp only [List.length_cons] at h ⊢
  omega

theorem sliceAux_join (k : Nat) (hk : 0 < k) :
    ∀ (fuel : Nat) (l : List α), l.length ≤ fuel → (sliceAux k fuel l).flatten = l
  | 0, l, h => by
    have : l = [] := List.length_eq_zero.mp (Nat.le_zero.mp h)
    subst this; rfl
  | _ + 1, [], _ => rfl
  | fuel + 1, d :: ds, h => by
    simp only [sliceAux, List.flatten_cons,
      sliceAux_join k hk fuel _ (drop_cons_length_le k fuel d ds h hk),
      List.take_append_drop]

theorem sliceAux_length (k : Nat) (hk : 0 < k) :
    ∀ (fuel : Nat) (l : List α), l.length ≤ fuel →
      (sliceAux k fuel l).length = (l.length + k - 1) / k
  | 0, l, h => by
    have : l = [] := List.length_eq_zero.mp (Nat.le_zero.mp h)
    subst this
    have hdiv : (k - 1) / k = 0 := Nat.div_eq_of_lt (by omega)
    simp [sliceAux, hdiv]
  | _ + 1, [], _ => by
    have hdiv : (k - 1) / k = 0 := Nat.div_eq_of_lt (by omega)
    simp [sliceAux, hdiv]
  | fuel + 1, d :: ds, h => by
    have hlen := drop_cons_length_le k fuel d ds h hk
    have hdl : ((d :: ds).drop k).length = ds.length + 1 - k := by
      rw [List.length_drop, List.length_cons]
    have ih := sliceAux_length k hk fuel ((d :: ds).drop k) hlen
    rw [hdl] at ih
    simp only [sliceAux, List.length_cons, ih]
    rcases le_or_lt (ds.length + 1) k with hlt | hge
    · have e1 : ds.length + 1 - k = 0 := by omega
      have e2 : (0 + k - 1) / k = 0 := Nat.div_eq_of_lt (by omega)
      have e3 : (ds.length + 1 + k - 1) / k = 1 :=
        Nat.div_eq_of_lt_le (by omega) (by omega)
      rw [e1, e2, e3]
    · have e1 : ds.length + 1 - k + k - 1 = (ds.length + 1 - k - 1) + k := by omega
      have e2 : ds.length + 1 + k - 1 = ((ds.length + 1 - k - 1) + k) + k := by omega
      rw [e1, e2, Nat.add_div_right _ hk, Nat.add_div_right _ hk, Nat.add_div_right _ hk]

theorem sliceAux_mem_length (k : Nat) :
    ∀ (fuel : Nat) (l : List α) (b : List α), b ∈ sliceAux k fuel l → b.length ≤ k
  | 0, _, _, h => absurd h (List.not_mem_nil _)
  | _ + 1, [], _, h => absurd h (List.not_mem_nil _)
  | fuel + 1, d :: ds, b, h => by
    simp only [sliceAux, List.mem_cons] at h
    rcases h with h | h
    · subst h
      exact List.length_take_le k (d :: ds)
    · exact sliceAux_mem_length k fuel _ b h

theorem sliceAux_nonfinal (k : Nat) (hk : 0 < k) :
    ∀ (fuel : Nat) (l : List α) (i : Nat), l.length ≤ fuel →
      i + 1 < (sliceAux k fuel l).length → ((sliceAux k fuel l).getD i []).length = k
  | 0, l, _, h, hi => by
    have : l = [] := List.length_eq_zero.mp (Nat.le_zero.mp h)
    subst this; simp [sliceAux] at hi
  | _ + 1, [], _, _, hi => by simp [sliceAux] at hi
  | fuel + 1, d :: ds, i, h, hi => by
    have hlen := drop_cons_length_le k fuel d ds h hk
    match i with
    | 0 =>
      simp only [sliceAux, List.length_cons, List.getD_cons_zero] at hi ⊢
      have hne : sliceAux k fuel ((d :: ds).drop k) ≠ [] := by
        intro hemp; rw [hemp] at hi; simp at hi
      have hdrop : (d :: ds).drop k ≠ [] := by
        intro hemp; rw [hemp, sliceAux_nil] at hne; exact hne rfl
      have hklt : k < (d :: ds).length := by
        by_contra hc
        exact hdrop (List.drop_eq_nil_of_le (Nat.le_of_not_lt hc))
      rw [List.length_take, Nat.min_eq_left (Nat.le_of_lt hklt)]
    | i + 1 =>
      simp only [sliceAux, List.length_cons, List.getD_cons_succ] at hi ⊢
      exact sliceAux_nonfinal k hk fuel _ i hlen (by omega)

theorem total_batches_eq (n k : Nat) (hk : 0 < k) :
    total_batches n k = (n + k - 1) / k := by
  have hmod := Nat.div_add_mod n k
  have hmlt := Nat.mod_lt n hk
  have c1 : n / k * k = k * (n / k) := Nat.mul_comm _ _
  have c2 : (n / k + 1) * k = k * (n / k) + k := by ring
  have c3 : (n / k + 1 + 1) * k = k * (n / k) + k + k := by ring
  unfold total_batches
  rcases Nat.eq_zero_or_pos (n % k) with hr | hr
  · have h2 : (n + k - 1) / k = n / k :=
      Nat.div_eq_of_lt_le (by omega) (by omega)
    simp [hr, h2]
  · have h1 : (n + k - 1) / k = n / k + 1 :=
      Nat.div_eq_of_lt_le (by omega) (by omega)
    have h2 : n % k ≠ 0 := by omega
    simp [h2, h1]

/-- C5: for every document list and batch size `K > 0`, `gen_batches`
produces exactly `⌈N/K⌉ = (N + K - 1) / K` batches (the same count as
`run.py`'s `total_batches` expression), the concatenation of the batches is
the source list itself (so batch sizes sum to `N` and source order is
preserved), every batch has size at most `K`, and every non-final batch has
size exactly `K`. -/
theorem C5_batcher_spec (docs : List α) (k : Nat) (hk : 0 < k) :
    (gen_batches docs k).flatten = docs ∧
    ((gen_batches docs k).map List.length).sum = docs.length ∧
    (gen_batches docs k).length = total_batches docs.length k ∧
    total_batches docs.length k = (docs.length + k - 1) / k ∧
    (∀ b ∈ gen_batches docs k, b.length ≤ k) ∧
    (∀ i, i + 1 < (gen_batches docs k).length →
      ((gen_batches docs k).getD i []).length = k) := by
  unfold gen_batches
  have hjoin := sliceAux_join k hk docs.length docs le_rfl
  refine ⟨hjoin, ?_, ?_, total_batches_eq _ _ hk, ?_, ?_⟩
  · rw [← List.length_flatten, hjoin]
  · rw [sliceAux_length k hk docs.length docs le_rfl, total_batches_eq _ _ hk]
  · exact fun b hb => sliceAux_mem_length k docs.length docs b hb
  · exact fun i hi => sliceAux_nonfinal k hk docs.length docs i le_rfl hi

theorem C5_batcher_spec_witness :
    (gen_batches [10, 20, 30, 40, 50] 2).flatten = [10, 20, 30, 40, 50] ∧
    ((gen_batches [10, 20, 30, 40, 50] 2).map List.length).sum = 5 ∧
    (gen_batches [10, 20, 30, 40, 50] 2).length = total_batches 5 2 ∧
    total_batches 5 2 = (5 + 2 - 1) / 2 ∧
    (∀ b ∈ gen_batches [10, 20, 30, 40, 50] 2, b.length ≤ 2) ∧
    (∀ i, i + 1 < (gen_batches [10, 20, 30, 40, 50] 2).length →
      ((gen_batches [10, 20, 30, 40, 50] 2).getD i []).length = 2) :=
  C5_batcher_spec [10, 20, 30, 40, 50] 2 (by decide)

/-! ## Helper lemmas for trial selection (C6) -/

theorem updateBest_ok (target : ℚ) (acc : Option Metrics) (m : Metrics)
    (hacc : ∀ b, acc = some b → trialOk b target = true) :
    ∀ b, updateBest target acc m = some b → trialOk b target = true := by
  intro b hb
  unfold updateBest at hb
  by_cases hok : trialOk m target
  · rw [if_pos hok] at hb
    cases acc with
    | none =>
      rw [Option.some.injEq] at hb
      subst hb; exact hok
    | some b₀ =>
      dsimp only at hb
      by_cases hlt : b₀.toks_s < m.toks_s
      · rw [if_pos hlt, Option.some.injEq] at hb
        subst hb; exact hok
      · rw [if_neg hlt, Option.some.injEq] at hb
        subst hb; exact hacc b₀ rfl
  · rw [if_neg hok] at hb
    exact hacc b hb

theorem updateBest_keeps (target : ℚ) (acc : Option Metrics) (m : Metrics) (b₀ : Metrics)
    (hacc : acc = some b₀) :
    ∃ b, updateBest target acc m = some b ∧ b₀.toks_s ≤ b.toks_s := by
  subst hacc
  unfold updateBest
  by_cases hok : trialOk m target
  · rw [if_pos hok]
    dsimp only
    by_cases hlt : b₀.toks_s < m.toks_s
    · rw [if_pos hlt]
      exact ⟨m, rfl, le_of_lt hlt⟩
    · rw [if_neg hlt]
      exact ⟨b₀, rfl, le_rfl⟩
  · rw [if_neg hok]
    exact ⟨b₀, rfl, le_rfl⟩

theorem updateBest_dominates (target : ℚ) (acc : Option Metrics) (m : Metrics)
    (hok : trialOk m target = true) :
    ∃ b, updateBest target acc m = some b ∧ m.toks_s ≤ b.toks_s := by
  unfold updateBest
  rw [if_pos hok]
  cases acc with
  | none => exact ⟨m, rfl, le_rfl⟩
  | some b₀ =>
    dsimp only
    by_cases hlt : b₀.toks_s < m.toks_s
    · rw [if_pos hlt]
      exact ⟨m, rfl, le_rfl⟩
    · rw [if_neg hlt]
      exact ⟨b₀, rfl, le_of_not_lt hlt⟩

theorem updateBest_none (target : ℚ) (acc : Option Metrics) (m : Metrics)
    (h : updateBest target acc m = none) :
    acc = none ∧ trialOk m target = false := by
  unfold updateBest at h
  by_cases hok : trialOk m target
  · rw [if_pos hok] at h
    cases acc with
    | none => cases h
    | some b₀ =>
      dsimp only at h
      by_cases hlt : b₀.toks_s < m.toks_s
      · rw [if_pos hlt] at h; cases h
      · rw [if_neg hlt] at h; cases h
  · rw [if_neg hok] at h
    exact ⟨h, by simpa using hok⟩

theorem updateBest_none_of (target : ℚ) (m : Metrics)
    (h : trialOk m target = false) : updateBest target none m = none := by
  unfold updateBest
  rw [h]
  simp

theorem updateBest_mem (target : ℚ) (acc : Option Metrics) (m : Metrics)
    (b : Metrics) (h : updateBest target acc m = some b) :
    b = m ∨ acc = some b := by
  unfold updateBest at h
  by_cases hok : trialOk m target
  · rw [if_pos hok] at h
    cases acc with
    | none =>
      rw [Option.some.injEq] at h
      exact Or.inl h.symm
    | some b₀ =>
      dsimp only at h
      by_cases hlt : b₀.toks_s < m.toks_s
      · rw [if_pos hlt, Option.some.injEq] at h
        exact Or.inl h.symm
      · rw [if_neg hlt] at h
        exact Or.inr h
  · rw [if_neg hok] at h
    exact Or.inr h

theorem foldl_updateBest_spec (target : ℚ) :
    ∀ (rs : List Metrics) (acc : Option Metrics),
      (∀ b, acc = some b → trialOk b target = true) →
      (∀ b, List.foldl (updateBest target) acc rs = some b → trialOk b target = true) ∧
      (∀ b₀, acc = some b₀ →
        ∃ b, List.foldl (updateBest target) acc rs = some b ∧ b₀.toks_s ≤ b.toks_s) ∧
      (∀ b, List.foldl (updateBest target) acc rs = some b →
        ∀ m ∈ rs, trialOk m target = true → m.toks_s ≤ b.toks_s) ∧
      (List.foldl (updateBest target) acc rs = none →
        acc = none ∧ ∀ m ∈ rs, trialOk m target = false) ∧
      (acc = none → (∀ m ∈ rs, trialOk m target = false) →
        List.foldl (updateBest target) acc rs = none) ∧
      (∀ b, List.foldl (updateBest target) acc rs = some b → b ∈ rs ∨ acc = some b)
  | [], acc, hacc => by
    simp only [List.foldl_nil]
    exact ⟨hacc, fun b₀ h => ⟨b₀, h, le_rfl⟩,
      fun b _ m hm => absurd hm (List.not_mem_nil m),
      fun h => ⟨h, fun m hm => absurd hm (List.not_mem_nil m)⟩,
      fun h _ => h, fun b hb => Or.inr hb⟩
  | m :: rs, acc, hacc => by
    simp only [List.foldl_cons]
    have hup := updateBest_ok target acc m hacc
    obtain ⟨ih1, ih2, ih3, ih4, ih5, ih6⟩ := foldl_updateBest_spec target rs _ hup
    refine ⟨ih1, ?_, ?_, ?_, ?_, ?_⟩
    · intro b₀ h
      obtain ⟨b₁, hb₁, hle₁⟩ := updateBest_keeps target acc m b₀ h
      obtain ⟨b, hb, hle⟩ := ih2 b₁ hb₁
      exact ⟨b, hb, le_trans hle₁ hle⟩
    · intro b hb m' hm' hok'
      rcases List.mem_cons.mp hm' with rfl | hm'
      · obtain ⟨b₁, hb₁, hle₁⟩ := updateBest_dominates target acc m' hok'
        obtain ⟨b₂, hb₂, hle₂⟩ := ih2 b₁ hb₁
        rw [hb] at hb₂
        cases hb₂
        exact le_trans hle₁ hle₂
      · exact ih3 b hb m' hm' hok'
    · intro h
      obtain ⟨hupd, hrest⟩ := ih4 h
      obtain ⟨hacc', hm⟩ := updateBest_none target acc m hupd
      exact ⟨hacc', fun m' hm' => by
        rcases List.mem_cons.mp hm' with rfl | hm''
        · exact hm
        · exact hrest m' hm''⟩
    · intro hnone hall
      have hm := hall m (List.mem_cons_self m rs)
      have hnone' : updateBest target acc m = none := by
        rw [hnone]; exact updateBest_none_of target m hm
      exact ih5 hnone' (fun m' hm' => hall m' (List.mem_cons_of_mem m hm'))
    · intro b hb
      rcases ih6 b hb with hmem | hupd
      · exact Or.inl (List.mem_cons_of_mem m hmem)
      · rcases updateBest_mem target acc m b hupd with rfl | hacc'
        · exact Or.inl (List.mem_cons_self b rs)
        · exact Or.inr hacc'

/-- C6: the orchestrator's `best` variable is `some b` only for a trial `b`
in the result list with `errors = 0` and `p95_s ≤ P95_TARGET` whose token
throughput is maximal among all qualifying trials; it is `None` exactly when
no trial qualifies, in which case the final report is the explicit
"no combo met the target" message rather than any trial. -/
theorem C6_select_best (target : ℚ) (rs : List Metrics) :
    (∀ b, selectBest target rs = some b →
      trialOk b target = true ∧ b ∈ rs ∧
      ∀ m ∈ rs, trialOk m target = true → m.toks_s ≤ b.toks_s) ∧
    (selectBest target rs = none ↔ ∀ m ∈ rs, trialOk m target = false) ∧
    ((∀ m ∈ rs, trialOk m target = false) → finalReport target rs = .noComboMet) ∧
    (∀ b, selectBest target rs = some b → finalReport target rs = .bestCombo b) := by
  obtain ⟨h1, _, h3, h4, h5, h6⟩ :=
    foldl_updateBest_spec target rs none (fun b h => by cases h)
  refine ⟨?_, ⟨fun h => (h4 h).2, h5 rfl⟩, ?_, ?_⟩
  · intro b hb
    refine ⟨h1 b hb, ?_, h3 b hb⟩
    rcases h6 b hb with hmem | habs
    · exact hmem
    · cases habs
  · intro hall
    unfold finalReport
    rw [show selectBest target rs = none from h5 rfl hall]
  · intro b hb
    unfold finalReport
    rw [show selectBest target rs = some b from hb]

/-- Concrete trials for the C6 witness: one qualifying with lower
throughput, one failing the error criterion, one qualifying with the
highest throughput. -/
def trialA : Metrics := ⟨8, 16, 100, 1000, 5, 40, 1, 2, 0, 20⟩

def trialB : Metrics := ⟨16, 16, 200, 2000, 9, 90, 1, 2, 3, 20⟩

def trialC : Metrics := ⟨32, 16, 150, 1500, 7, 70, 1, 3, 0, 20⟩

theorem C6_select_best_witness :
    trialOk trialC 10 = true ∧ trialC ∈ [trialA, trialB, trialC] ∧
    ∀ m ∈ [trialA, trialB, trialC], trialOk m 10 = true → m.toks_s ≤ trialC.toks_s :=
  (C6_select_best 10 [trialA, trialB, trialC]).1 trialC (by decide)

/-! ## C7: warm-up trim -/

/-- C7: when more than five latency samples were collected and the warm-up
duration is positive, the warm-up trim drops exactly
`min(⌊n·(warmup/max(trial,1))⌋, n // 4)` of the earliest samples — never
more than a quarter of them; with at most five samples or a zero warm-up
duration, no samples are dropped. -/
theorem C7_warmup_trim (lat : List ℚ) (warmup trial : ℚ) :
    (lat.length > 5 ∧ warmup > 0 →
      latUse lat warmup trial =
        lat.drop (min (Int.toNat ⌊(lat.length : ℚ) * (warmup / max trial 1)⌋)
          (lat.length / 4)) ∧
      lat.length - (latUse lat warmup trial).length =
        min (Int.toNat ⌊(lat.length : ℚ) * (warmup / max trial 1)⌋) (lat.length / 4)) ∧
    (lat.length ≤ 5 ∨ warmup = 0 → latUse lat warmup trial = lat) ∧
    lat.length - (latUse lat warmup trial).length ≤ lat.length / 4 := by
  have hmin : min (Int.toNat ⌊(lat.length : ℚ) * (warmup / max trial 1)⌋) (lat.length / 4)
      ≤ lat.length / 4 := min_le_right _ _
  have hle : lat.length / 4 ≤ lat.length := Nat.div_le_self _ _
  refine ⟨?_, ?_, ?_⟩
  · intro hcond
    unfold latUse trimCount
    rw [if_pos hcond]
    refine ⟨rfl, ?_⟩
    rw [List.length_drop]
    omega
  · intro hcond
    unfold latUse
    rw [if_neg]
    rintro ⟨hgt, hpos⟩
    rcases hcond with h | h
    · omega
    · rw [h] at hpos; exact lt_irrefl 0 hpos
  · unfold latUse trimCount
    split
    · rw [List.length_drop]
      omega
    · omega

theorem C7_warmup_trim_witness :
    latUse [10, 20, 30, 40, 50, 60, 70, 80] 3 20 =
      ([10, 20, 30, 40, 50, 60, 70, 80] : List ℚ).drop
        (min (Int.toNat ⌊(([10, 20, 30, 40, 50, 60, 70, 80] : List ℚ).length : ℚ) * (3 / max 20 1)⌋)
          (([10, 20, 30, 40, 50, 60, 70, 80] : List ℚ).length / 4)) ∧
    ([10, 20, 30, 40, 50, 60, 70, 80] : List ℚ).length -
        (latUse [10, 20, 30, 40, 50, 60, 70, 80] 3 20).length =
      min (Int.toNat ⌊(([10, 20, 30, 40, 50, 60, 70, 80] : List ℚ).length : ℚ) * (3 / max 20 1)⌋)
        (([10, 20, 30, 40, 50, 60, 70, 80] : List ℚ).length / 4) :=
  (C7_warmup_trim [10, 20, 30, 40, 50, 60, 70, 80] 3 20).1 ⟨by decide, by norm_num⟩

/-! ## C10: length bound on cleaned text -/

theorem clean_tweet_text_length_le (t : List Char) :
    (clean_tweet_text t).length ≤ 1000 := by
  unfold clean_tweet_text
  split
  · simp
  · exact List.length_take_le _ _

/-- C10: every cleaned text is at most 1000 characters, and consequently
every text the `embed_tweets.py` worker submits to the endpoint
(`texts_to_embed`) is at most 1000 characters. -/
theorem C10_submitted_length_bound (t : List Char) (batch : List RawDoc) :
    (clean_tweet_text t).length ≤ 1000 ∧
    ∀ txt ∈ textsToEmbed batch, txt.length ≤ 1000 := by
  refine ⟨clean_tweet_text_length_le t, ?_⟩
  intro txt htxt
  unfold textsToEmbed at htxt
  rcases List.mem_map.mp htxt with ⟨d, hd, rfl⟩
  rcases List.mem_filterMap.mp hd with ⟨d₀, _, hsome⟩
  by_cases h0 : d₀.text = []
  · rw [if_pos h0] at hsome; cases hsome
  · rw [if_neg h0] at hsome
    simp only at hsome
    by_cases h1 : clean_tweet_text d₀.text = []
    · rw [if_pos h1] at hsome; cases hsome
    · rw [if_neg h1] at hsome
      cases hsome
      exact clean_tweet_text_length_le d₀.text

theorem C10_submitted_length_bound_witness :
    (clean_tweet_text ['h', 'i']).length ≤ 1000 ∧
    ['h', 'i'].length ≤ 1000 :=
  ⟨(C10_submitted_length_bound ['h', 'i'] [⟨.plain ['a'], ['h', 'i']⟩]).1,
    (C10_submitted_length_bound ['h', 'i'] [⟨.plain ['a'], ['h', 'i']⟩]).2
      ['h', 'i'] (by decide)⟩

/-! ## Helper lemmas for the retry loop (C2, C3, C4) -/

theorem retryGo_attempts_le (client : AttemptClient) (M : Nat) :
    ∀ (fuel i : Nat), (retryGo client M fuel i).attempts ≤ i + fuel
  | 0, i => Nat.le_of_eq (Nat.add_zero i).symm
  | fuel + 1, i => by
    simp only [retryGo]
    cases hc : client i with
    | ok e => simp only; omega
    | error e =>
      simp only
      have := retryGo_attempts_le client M fuel (i + 1)
      omega

/-- If the first `k` attempts starting at `i` fail and attempt `i + k`
succeeds strictly before the retry bound, the loop returns the successful
body after `k` five-second sleeps, `i + k + 1` total attempts and no
"max retries" error record. -/
theorem retryGo_succ (client : AttemptClient) (M : Nat) (E : List JVal) :
    ∀ (k fuel i : Nat), k < fuel →
      (∀ j, j < k → client (i + j) = .error ()) →
      client (i + k) = .ok E →
      i + k + 1 ≤ M →
      retryGo client M fuel i = ⟨E, i + k + 1, 5 * k, 0⟩
  | 0, fuel, i, hk, _, hsucc, _ => by
    obtain ⟨f, rfl⟩ : ∃ f, fuel = f + 1 := ⟨fuel - 1, by omega⟩
    rw [Nat.add_zero] at hsucc
    simp only [retryGo, hsucc]
  | k + 1, fuel, i, hk, hfail, hsucc, hbound => by
    obtain ⟨f, rfl⟩ : ∃ f, fuel = f + 1 := ⟨fuel - 1, by omega⟩
    have h0 : client i = .error () := by
      have := hfail 0 (by omega)
      rwa [Nat.add_zero] at this
    have hrest : retryGo client M f (i + 1) = ⟨E, (i + 1) + k + 1, 5 * k, 0⟩ :=
      retryGo_succ client M E k f (i + 1) (by omega)
        (fun j hj => by
          have := hfail (j + 1) (by omega)
          rwa [show i + (j + 1) = i + 1 + j by omega] at this)
        (by rwa [show i + 1 + k = i + (k + 1) by omega])
        (by omega)
    simp only [retryGo, h0, hrest]
    have hne : i ≠ M - 1 := by omega
    rw [if_neg hne]
    congr 1 <;> omega

/-- If every attempt in `[i, M)` fails and `i + fuel = M`, the loop ends
with the `embeddings` variable still empty, `M` attempts, a five-second
sleep per failure, and (when at least one iteration ran) exactly one
"Max retries reached" error record. -/
theorem retryGo_allfail (client : AttemptClient) (M : Nat) :
    ∀ (fuel i : Nat), i + fuel = M →
      (∀ j, i ≤ j → j < M → client j = .error ()) →
      retryGo client M fuel i = ⟨[], M, 5 * fuel, if 0 < fuel then 1 else 0⟩
  | 0, i, hiM, _ => by
    simp only [retryGo]
    congr 1 <;> simp <;> omega
  | fuel + 1, i, hiM, hfail => by
    have h0 : client i = .error () := hfail i le_rfl (by omega)
    have hrest : retryGo client M fuel (i + 1) = ⟨[], M, 5 * fuel, if 0 < fuel then 1 else 0⟩ :=
      retryGo_allfail client M fuel (i + 1) (by omega)
        (fun j hj hj' => hfail j (by omega) hj')
    simp only [retryGo, h0, hrest]
    rcases Nat.eq_zero_or_pos fuel with hf | hf
    · subst hf
      have : i = M - 1 := by omega
      rw [if_pos this]
      simp
    · have : i ≠ M - 1 := by omega
      rw [if_neg this, if_pos hf, if_pos (by omega : 0 < fuel + 1)]
      congr 1 <;> omega

/-- Mapping with `mapM` over `Option` preserves length. -/
theorem mapM_option_length {α β : Type _} (f : α → Option β) :
    ∀ (l : List α) (ys : List β), l.mapM f = some ys → ys.length = l.length
  | [], ys, h => by
    simp only [List.mapM_nil, pure, Option.some.injEq] at h
    subst h; rfl
  | a :: l, ys, h => by
    simp only [List.mapM_cons] at h
    cases hfa : f a with
    | none => rw [hfa] at h; cases h
    | some b =>
      rw [hfa] at h
      cases hrest : l.mapM f with
      | none =>
        rw [hrest] at h
        cases h
      | some bs =>
        rw [hrest] at h
        have h' : some (b :: bs) = some ys := by simpa using h
        injection h' with h''
        subst h''
        simp only [List.length_cons, mapM_option_length f l bs hrest]

/-- C2: after the request succeeds with body `E` on a batch with valid
documents, the worker persists an output exactly when the response is a
numeric-vector list of the same length as the submitted ids; the persisted
table pairs the `i`-th id with the `i`-th vector (input order), and any
length mismatch yields no persisted output for the batch. -/
theorem C2_result_alignment (client : AttemptClient) (M : Nat) (batch : List RawDoc)
    (E : List JVal)
    (hvalid : validDocs batch ≠ [])
    (hE : (retryLoop client M).embeddings = E) (hEne : E ≠ []) :
    (E.length ≠ (validDocs batch).length → (processBatch client M batch).persisted = none) ∧
    (∀ vecs, (E.map unwrapEmb).mapM asVec = some vecs →
      E.length = (validDocs batch).length →
      (processBatch client M batch).persisted =
        some (((validDocs batch).map (fun d => normalizeId d._id)).zip vecs) ∧
      (((validDocs batch).map (fun d => normalizeId d._id)).zip vecs).map Prod.fst =
        (validDocs batch).map (fun d => normalizeId d._id) ∧
      (((validDocs batch).map (fun d => normalizeId d._id)).zip vecs).map Prod.snd = vecs) := by
  have hids : ((validDocs batch).map (fun d => normalizeId d._id)).length =
      (validDocs batch).length := List.length_map _ _
  constructor
  · intro hne
    simp only [processBatch, if_neg hvalid]
    rw [hE]
    cases E with
    | nil => exact absurd rfl hEne
    | cons e es =>
      simp only
      unfold from_pydict
      cases hmap : ((e :: es).map unwrapEmb).mapM asVec with
      | none => rfl
      | some vecs =>
        dsimp only
        have hvl : vecs.length = (e :: es).length := by
          have := mapM_option_length asVec ((e :: es).map unwrapEmb) vecs hmap
          rwa [List.length_map] at this
        rw [if_neg (by rw [hids, hvl]; omega)]
  · intro vecs hmap hlen
    simp only [processBatch, if_neg hvalid]
    rw [hE]
    cases E with
    | nil => exact absurd rfl hEne
    | cons e es =>
      simp only
      unfold from_pydict
      rw [hmap]
      dsimp only
      have hvl : vecs.length = (e :: es).length := by
        have := mapM_option_length asVec ((e :: es).map unwrapEmb) vecs hmap
        rwa [List.length_map] at this
      rw [if_pos (by rw [hids, hvl]; omega)]
      refine ⟨rfl, ?_, ?_⟩
      · exact List.map_fst_zip _ _ (by rw [hids, hvl]; omega)
      · exact List.map_snd_zip _ _ (by rw [hids, hvl]; omega)

/-- C3: when the client fails on exactly the first `max_retries - 1`
attempts and succeeds on the last one with a well-shaped non-empty body,
the worker keeps the successful result and persists it, records no
"max retries" error for the batch, sleeps a fixed five seconds after each
of the `max_retries - 1` failures (and not after the success), issues
exactly `max_retries` attempts, and — for any client at all — the retry
loop never issues more than `max_retries` attempts. -/
theorem C3_retry_success_last (client : AttemptClient) (M : Nat) (E : List JVal)
    (batch : List RawDoc) (vecs : List (List ℚ))
    (hM : 1 ≤ M)
    (hfail : ∀ j, j < M - 1 → client j = .error ())
    (hsucc : client (M - 1) = .ok E)
    (hvalid : validDocs batch ≠ [])
    (hEne : E ≠ [])
    (hshape : (E.map unwrapEmb).mapM asVec = some vecs)
    (hlen : E.length = (validDocs batch).length) :
    (retryLoop client M).embeddings = E ∧
    (processBatch client M batch).persisted =
      some (((validDocs batch).map (fun d => normalizeId d._id)).zip vecs) ∧
    (processBatch client M batch).errorLogs = 0 ∧
    (processBatch client M batch).attempts = M ∧
    (processBatch client M batch).sleepSeconds = 5 * (M - 1) ∧
    (processBatch client M batch).requeued = false ∧
    (∀ (client' : AttemptClient) (M' : Nat), (retryLoop client' M').attempts ≤ M') := by
  have hloop : retryLoop client M = ⟨E, M, 5 * (M - 1), 0⟩ := by
    unfold retryLoop
    have h := retryGo_succ client M E (M - 1) M 0 (by omega)
      (fun j hj => by simpa using hfail j hj)
      (by simpa using hsucc) (by omega)
    rw [h]
    congr 1 <;> omega
  have hproc : processBatch client M batch =
      ⟨some (((validDocs batch).map (fun d => normalizeId d._id)).zip vecs),
        0, 5 * (M - 1), M, false⟩ := by
    simp only [processBatch, if_neg hvalid]
    rw [hloop]
    cases E with
    | nil => exact absurd rfl hEne
    | cons e es =>
      simp only
      unfold from_pydict
      rw [hshape]
      dsimp only
      have hvl : vecs.length = (e :: es).length := by
        have := mapM_option_length asVec ((e :: es).map unwrapEmb) vecs hshape
        rwa [List.length_map] at this
      rw [if_pos (by rw [List.length_map, hvl]; omega)]
  rw [hproc, hloop]
  exact ⟨rfl, rfl, rfl, rfl, rfl, rfl,
    fun client' M' => by simpa using retryGo_attempts_le client' M' M' 0⟩

theorem C3_retry_success_last_witness :
    (retryLoop (fun i => if i < 2 then .error () else .ok [.arr [.num 1, .num 2]]) 3).embeddings
      = [.arr [.num 1, .num 2]] ∧
    (processBatch (fun i => if i < 2 then .error () else .ok [.arr [.num 1, .num 2]]) 3
        [⟨.plain ['a'], ['h', 'i']⟩]).persisted =
      some (((validDocs [⟨.plain ['a'], ['h', 'i']⟩]).map
          (fun d => normalizeId d._id)).zip [[1, 2]]) ∧
    (processBatch (fun i => if i < 2 then .error () else .ok [.arr [.num 1, .num 2]]) 3
        [⟨.plain ['a'], ['h', 'i']⟩]).errorLogs = 0 ∧
    (processBatch (fun i => if i < 2 then .error () else .ok [.arr [.num 1, .num 2]]) 3
        [⟨.plain ['a'], ['h', 'i']⟩]).attempts = 3 ∧
    (processBatch (fun i => if i < 2 then .error () else .ok [.arr [.num 1, .num 2]]) 3
        [⟨.plain ['a'], ['h', 'i']⟩]).sleepSeconds = 5 * (3 - 1) ∧
    (processBatch (fun i => if i < 2 then .error () else .ok [.arr [.num 1, .num 2]]) 3
        [⟨.plain ['a'], ['h', 'i']⟩]).requeued = false ∧
    (∀ (client' : AttemptClient) (M' : Nat), (retryLoop client' M').attempts ≤ M') :=
  C3_retry_success_last (fun i => if i < 2 then .error () else .ok [.arr [.num 1, .num 2]])
    3 [.arr [.num 1, .num 2]] [⟨.plain ['a'], ['h', 'i']⟩] [[1, 2]]
    (by omega)
    (by
      intro j hj
      match j, hj with
      | 0, _ => rfl
      | 1, _ => rfl)
    rfl (by decide) (by simp) rfl (by decide)

/-- C4 counterexample: a failed batch for which the autotune worker records
two error samples, not one.  On a non-200 status whose body read
(`await r.text()`) itself raises, `err_ctr.append(1)` runs in the status
branch and then again in the outer `except` handler. -/
theorem C4_one_error_counterexample :
    (autotuneWorkerBatch (.status 500 (.error ()))).errAppends = 2 ∧
    (autotuneWorkerBatch (.status 500 (.error ()))).errAppends ≠ 1 :=
  ⟨rfl, by decide⟩

/-- C4 amended: when every attempt on a batch fails, the `embed_tweets.py`
worker ends with exactly one "Max retries reached" error record, no
persisted output, exactly `max_retries` attempts, and no re-queueing of the
batch; the `autotune_cloudflare.py` worker appends exactly one error sample
when its request raises or when a non-200 response's body is read
successfully, but exactly two — the status-branch append plus the exception
handler's — when the body read of a non-200 response itself raises; in
every case it appends exactly one latency, token and doc sample. -/
theorem C4_allfail_error_accounting (client : AttemptClient) (M : Nat)
    (batch : List RawDoc)
    (hM : 1 ≤ M)
    (hfail : ∀ j, j < M → client j = .error ())
    (hvalid : validDocs batch ≠ []) :
    (processBatch client M batch).persisted = none ∧
    (processBatch client M batch).errorLogs = 1 ∧
    (processBatch client M batch).attempts = M ∧
    (processBatch client M batch).requeued = false ∧
    (autotuneWorkerBatch .raise).errAppends = 1 ∧
    (∀ code : Nat, code ≠ 200 →
      (autotuneWorkerBatch (.status code (.ok ()))).errAppends = 1) ∧
    (∀ code : Nat, code ≠ 200 →
      (autotuneWorkerBatch (.status code (.error ()))).errAppends = 2) ∧
    (∀ resp : ATResp, (autotuneWorkerBatch resp).latAppends = 1 ∧
      (autotuneWorkerBatch resp).tokAppends = 1 ∧
      (autotuneWorkerBatch resp).docAppends = 1) := by
  have hloop : retryLoop client M = ⟨[], M, 5 * M, 1⟩ := by
    unfold retryLoop
    rw [retryGo_allfail client M M 0 (by omega) (fun j _ hj => hfail j hj)]
    rw [if_pos (by omega)]
  have hproc : processBatch client M batch = ⟨none, 1, 5 * M, M, false⟩ := by
    simp only [processBatch, if_neg hvalid]
    rw [hloop]
  refine ⟨by rw [hproc], by rw [hproc], by rw [hproc], by rw [hproc], rfl, ?_, ?_, ?_⟩
  · intro code hcode
    show (if code ≠ 200 then (⟨1, 1, 1, 1⟩ : ATOutcome) else ⟨0, 1, 1, 1⟩).errAppends = 1
    rw [if_pos hcode]
  · intro code hcode
    show (if code ≠ 200 then (⟨1 + 1, 1, 1, 1⟩ : ATOutcome) else ⟨1, 1, 1, 1⟩).errAppends = 2
    rw [if_pos hcode]
  · intro resp
    cases resp with
    | raise => exact ⟨rfl, rfl, rfl⟩
    | status code bodyRead =>
      by_cases hcode : code ≠ 200
      · cases bodyRead with
        | ok u =>
          refine ⟨?_, ?_, ?_⟩ <;>
            · show _ = 1
              rw [show autotuneWorkerBatch (.status code (.ok u)) =
                (if code ≠ 200 then (⟨1, 1, 1, 1⟩ : ATOutcome) else ⟨0, 1, 1, 1⟩) from rfl,
                if_pos hcode]
        | error u =>
          refine ⟨?_, ?_, ?_⟩ <;>
            · show _ = 1
              rw [show autotuneWorkerBatch (.status code (.error u)) =
                (if code ≠ 200 then (⟨1 + 1, 1, 1, 1⟩ : ATOutcome) else ⟨1, 1, 1, 1⟩) from rfl,
                if_pos hcode]
      · cases bodyRead with
        | ok u =>
          refine ⟨?_, ?_, ?_⟩ <;>
            · show _ = 1
              rw [show autotuneWorkerBatch (.status code (.ok u)) =
                (if code ≠ 200 then (⟨1, 1, 1, 1⟩ : ATOutcome) else ⟨0, 1, 1, 1⟩) from rfl,
                if_neg hcode]
        | error u =>
          refine ⟨?_, ?_, ?_⟩ <;>
            · show _ = 1
              rw [show autotuneWorkerBatch (.status code (.error u)) =
                (if code ≠ 200 then (⟨1 + 1, 1, 1, 1⟩ : ATOutcome) else ⟨1, 1, 1, 1⟩) from rfl,
                if_neg hcode]

theorem C4_allfail_error_accounting_witness :
    (processBatch (fun _ => .error ()) 2 [⟨.plain ['a'], ['h', 'i']⟩]).persisted = none ∧
    (processBatch (fun _ => .error ()) 2 [⟨.plain ['a'], ['h', 'i']⟩]).errorLogs = 1 ∧
    (processBatch (fun _ => .error ()) 2 [⟨.plain ['a'], ['h', 'i']⟩]).attempts = 2 ∧
    (processBatch (fun _ => .error ()) 2 [⟨.plain ['a'], ['h', 'i']⟩]).requeued = false ∧
    (autotuneWorkerBatch .raise).errAppends = 1 ∧
    (autotuneWorkerBatch (.status 500 (.ok ()))).errAppends = 1 ∧
    (autotuneWorkerBatch (.status 500 (.error ()))).errAppends = 2 ∧
    ((autotuneWorkerBatch (.status 503 (.ok ()))).latAppends = 1 ∧
      (autotuneWorkerBatch (.status 503 (.ok ()))).tokAppends = 1 ∧
      (autotuneWorkerBatch (.status 503 (.ok ()))).docAppends = 1) := by
  have h := C4_allfail_error_accounting (fun _ => .error ()) 2
    [⟨.plain ['a'], ['h', 'i']⟩] (by omega) (fun j _ => rfl) (by decide)
  exact ⟨h.1, h.2.1, h.2.2.1, h.2.2.2.1, h.2.2.2.2.1,
    h.2.2.2.2.2.1 500 (by decide), h.2.2.2.2.2.2.1 500 (by decide),
    h.2.2.2.2.2.2.2 (.status 503 (.ok ()))⟩

theorem C2_result_alignment_witness :
    (processBatch (fun _ => .ok [.arr [.num 1, .num 2]]) 1
        [⟨.plain ['a'], ['h', 'i']⟩]).persisted =
      some (((validDocs [⟨.plain ['a'], ['h', 'i']⟩]).map
          (fun d => normalizeId d._id)).zip [[1, 2]]) :=
  ((C2_result_alignment (fun _ => .ok [.arr [.num 1, .num 2]]) 1
      [⟨.plain ['a'], ['h', 'i']⟩] [.arr [.num 1, .num 2]]
      (by decide) rfl (by simp)).2 [[1, 2]] rfl (by decide)).1

/-! ## Helper lemmas for the dispatch shutdown protocol (C1) -/

theorem countNone_append (q r : List (Option B)) :
    countNone (q ++ r) = countNone q + countNone r :=
  List.countP_append _ _ _

theorem countNone_map_some (bs : List B) : countNone (List.map some bs) = 0 := by
  rw [countNone, List.countP_eq_zero]
  intro a ha
  rcases List.mem_map.mp ha with ⟨b, _, rfl⟩
  simp

theorem countNone_replicate (k : Nat) :
    countNone (List.replicate k (none : Option B)) = k := by
  induction k with
  | zero => rfl
  | succ k ih =>
    rw [List.replicate_succ, countNone, List.countP_cons_of_pos _ _ (by simp),
      ← countNone, ih]

theorem countNone_cons_some (b : B) (q : List (Option B)) :
    countNone (some b :: q) = countNone q :=
  List.countP_cons_of_neg _ _ (by simp)

theorem countNone_cons_none (q : List (Option B)) :
    countNone ((none : Option B) :: q) = countNone q + 1 :=
  List.countP_cons_of_pos _ _ (by simp)

theorem countP_set_get (p : α → Bool) :
    ∀ (l : List α) (i : Nat) (a old : α), l[i]? = some old →
      (l.set i a).countP p + (if p old then 1 else 0) =
        l.countP p + (if p a then 1 else 0)
  | [], i, a, old, h => by simp at h
  | b :: l, 0, a, old, h => by
    rw [List.getElem?_cons_zero, Option.some.injEq] at h
    subst h
    rw [List.set_cons_zero, List.countP_cons, List.countP_cons]
    omega
  | b :: l, i + 1, a, old, h => by
    rw [List.getElem?_cons_succ] at h
    rw [List.set_cons_succ, List.countP_cons, List.countP_cons]
    have := countP_set_get p l i a old h
    omega

theorem countDone_set_not_done (ws : List (WStatus B)) (i : Nat) (old new : WStatus B)
    (hget : ws[i]? = some old) (hold : old.isDone = false) (hnew : new.isDone = false) :
    countDone (ws.set i new) = countDone ws := by
  have h := countP_set_get (fun st => st.isDone) ws i new old hget
  simp only [hold, hnew, Bool.false_eq_true, if_false] at h
  unfold countDone
  omega

theorem countDone_set_done_of_idle (ws : List (WStatus B)) (i : Nat)
    (hget : ws[i]? = some .idle) :
    countDone (ws.set i .done) = countDone ws + 1 := by
  have h := countP_set_get (fun st => st.isDone) ws i .done .idle hget
  have h1 : WStatus.isDone (B := B) .idle = false := rfl
  have h2 : WStatus.isDone (B := B) .done = true := rfl
  simp only [h1, h2, Bool.false_eq_true, if_false, if_true] at h
  unfold countDone
  omega

theorem countDone_replicate_idle (w : Nat) :
    countDone (List.replicate w (.idle : WStatus B)) = 0 := by
  unfold countDone
  rw [List.countP_eq_zero]
  intro a ha
  rw [List.eq_of_mem_replicate ha]
  simp [WStatus.isDone]

theorem DInv_init (batches : List B) (w : Nat) : DInv w (DInit batches w) := by
  unfold DInv DInit
  dsimp only
  refine ⟨⟨[], 0, rfl⟩, ?_, ?_, List.length_replicate w _⟩
  · intro h
    exfalso
    rcases h with h | h
    · simp [countNone] at h
    · exact absurd h (lt_irrefl w)
  · have hn : countNone ([] : List (Option B)) = 0 := rfl
    have hd := countDone_replicate_idle (B := B) w
    omega

theorem queue_shape_cons_some (b : B) (q : List (Option B)) (bs : List B) (k : Nat)
    (hq : some b :: q = List.map some bs ++ List.replicate k none) :
    ∃ bs', bs = b :: bs' ∧ q = List.map some bs' ++ List.replicate k none := by
  cases bs with
  | nil =>
    simp only [List.map_nil, List.nil_append] at hq
    cases k with
    | zero => cases hq
    | succ k =>
      rw [List.replicate_succ] at hq
      cases hq
  | cons b₀ bs' =>
    simp only [List.map_cons, List.cons_append] at hq
    injection hq with h1 h2
    injection h1 with h1
    exact ⟨bs', by rw [h1], h2⟩

theorem queue_shape_cons_none (q : List (Option B)) (bs : List B) (k : Nat)
    (hq : (none : Option B) :: q = List.map some bs ++ List.replicate k none) :
    bs = [] ∧ ∃ k', k = k' + 1 ∧ q = List.replicate k' none := by
  cases bs with
  | nil =>
    simp only [List.map_nil, List.nil_append] at hq
    cases k with
    | zero => cases hq
    | succ k' =>
      rw [List.replicate_succ] at hq
      injection hq with _ h2
      exact ⟨rfl, k', rfl, h2⟩
  | cons b₀ bs' =>
    simp only [List.map_cons, List.cons_append] at hq
    injection hq with h1 _
    cases h1

theorem DInv_step (cap w : Nat) (s s' : DState B) (h : DStep cap s s')
    (hinv : DInv w s) : DInv w s' := by
  obtain ⟨⟨bs, k, hq⟩, hprod, hcount, hlen⟩ := hinv
  cases h with
  | put b rest pills queue ws hcap =>
    dsimp only at hq hprod hcount hlen
    unfold DInv
    dsimp only
    have hnc : countNone queue = 0 ∧ w ≤ pills := by
      rcases Nat.eq_zero_or_pos (countNone queue) with h0 | h0
      · rcases le_or_lt w pills with h1 | h1
        · exact ⟨h0, h1⟩
        · exact absurd (hprod (Or.inr h1)) (List.cons_ne_nil b rest)
      · exact absurd (hprod (Or.inl h0)) (List.cons_ne_nil b rest)
    have hk : k = 0 := by
      rw [hq, countNone_append, countNone_map_some, countNone_replicate] at hnc
      omega
    subst hk
    have h1 : countNone [some b] = 0 := countNone_cons_some b []
    refine ⟨⟨bs ++ [b], 0, ?_⟩, ?_, ?_, hlen⟩
    · rw [hq]
      simp [List.map_append]
    · intro hcond
      exfalso
      rw [countNone_append] at hcond
      rcases hcond with hcond | hcond <;> omega
    · rw [countNone_append]
      omega
  | stop b rest pills queue ws =>
    dsimp only at hq hprod hcount hlen
    unfold DInv
    dsimp only
    exact ⟨⟨bs, k, hq⟩, fun _ => rfl, hcount, hlen⟩
  | pill p queue ws hcap =>
    dsimp only at hq hprod hcount hlen
    unfold DInv
    dsimp only
    have h1 : countNone [(none : Option B)] = 1 := countNone_cons_none []
    refine ⟨⟨bs, k + 1, ?_⟩, fun _ => rfl, ?_, hlen⟩
    · rw [hq, List.replicate_succ' k, List.append_assoc]
    · rw [countNone_append]
      omega
  | take prod pills b queue ws i hidle =>
    dsimp only at hq hprod hcount hlen
    unfold DInv
    dsimp only
    obtain ⟨bs', hbs, hq'⟩ := queue_shape_cons_some b queue bs k hq
    have hdone : countDone (ws.set i (.busy b)) = countDone ws :=
      countDone_set_not_done ws i .idle (.busy b) hidle rfl rfl
    have hcn : countNone (some b :: queue) = countNone queue := countNone_cons_some b queue
    refine ⟨⟨bs', k, hq'⟩, ?_, ?_, ?_⟩
    · intro hcond
      exact hprod (by omega)
    · omega
    · rw [List.length_set]; exact hlen
  | takePill prod pills queue ws i hidle =>
    dsimp only at hq hprod hcount hlen
    unfold DInv
    dsimp only
    obtain ⟨hbs, k', hk, hq'⟩ := queue_shape_cons_none queue bs k hq
    have hdone : countDone (ws.set i .done) = countDone ws + 1 :=
      countDone_set_done_of_idle ws i hidle
    have hcn : countNone ((none : Option B) :: queue) = countNone queue + 1 :=
      countNone_cons_none queue
    refine ⟨⟨[], k', by simpa using hq'⟩, ?_, ?_, ?_⟩
    · intro _
      exact hprod (Or.inl (by omega))
    · omega
    · rw [List.length_set]; exact hlen
  | finish prod pills queue ws i b hbusy =>
    dsimp only at hq hprod hcount hlen
    unfold DInv
    dsimp only
    have hdone : countDone (ws.set i .idle) = countDone ws :=
      countDone_set_not_done ws i (.busy b) .idle hbusy rfl rfl
    exact ⟨⟨bs, k, hq⟩, hprod, by omega, by rw [List.length_set]; exact hlen⟩

theorem DReach_inv (cap : Nat) (batches : List B) (w : Nat) (s : DState B)
    (h : DReach cap batches w s) : DInv w s := by
  induction h with
  | refl => exact DInv_init batches w
  | tail _ hstep ih => exact DInv_step cap w _ _ hstep ih

theorem DStep_done_preserved (cap : Nat) (s s' : DState B) (h : DStep cap s s')
    (i : Nat) (hd : s.ws[i]? = some .done) : s'.ws[i]? = some .done := by
  cases h with
  | put b rest pills queue ws hcap => exact hd
  | stop b rest pills queue ws => exact hd
  | pill p queue ws hcap => exact hd
  | take prod pills b queue ws j hidle =>
    simp only at hd ⊢
    have hne : j ≠ i := by
      intro he
      rw [he, hd] at hidle
      cases hidle
    rw [List.getElem?_set_ne hne]
    exact hd
  | takePill prod pills queue ws j hidle =>
    simp only at hd ⊢
    have hne : j ≠ i := by
      intro he
      rw [he, hd] at hidle
      cases hidle
    rw [List.getElem?_set_ne hne]
    exact hd
  | finish prod pills queue ws j b hbusy =>
    simp only at hd ⊢
    have hne : j ≠ i := by
      intro he
      rw [he, hd] at hbusy
      cases hbusy
    rw [List.getElem?_set_ne hne]
    exact hd

theorem DStep_pills_change (cap : Nat) (s s' : DState B) (h : DStep cap s s')
    (hne : s'.pills ≠ s.pills) :
    s.prod = [] ∧ s'.pills + 1 = s.pills ∧ s'.queue = s.queue ++ [none] := by
  cases h with
  | put b rest pills queue ws hcap => exact absurd rfl hne
  | stop b rest pills queue ws => exact absurd rfl hne
  | pill p queue ws hcap => exact ⟨rfl, rfl, rfl⟩
  | take prod pills b queue ws i hidle => exact absurd rfl hne
  | takePill prod pills queue ws i hidle => exact absurd rfl hne
  | finish prod pills queue ws i b hbusy => exact absurd rfl hne

/-- C1: in every state reachable under any interleaving of the producer and
workers, pending pills, queued terminal markers and finished workers
account for exactly one terminal marker per worker (so once the producer is
done and the queue is drained every worker has consumed exactly one marker
and returned); a terminal marker is only ever at the queue front when no
batch remains queued behind it; a worker that has returned stays returned
across every step; and the only step that emits a terminal marker does so
one marker at a time with the source already exhausted. -/
theorem C1_dispatch_shutdown (cap w : Nat) (batches : List B) (s : DState B)
    (h : DReach cap batches w s) :
    s.pills + countNone s.queue + countDone s.ws = w ∧
    (∀ rest, s.queue = none :: rest → ∀ b : B, some b ∉ rest) ∧
    (s.pills = 0 ∧ s.queue = [] → countDone s.ws = w) ∧
    (∀ s' : DState B, DStep cap s s' →
      (∀ i : Nat, s.ws[i]? = some WStatus.done → s'.ws[i]? = some WStatus.done) ∧
      (s'.pills ≠ s.pills →
        s.prod = [] ∧ s'.pills + 1 = s.pills ∧ s'.queue = s.queue ++ [none])) := by
  obtain ⟨⟨bs, k, hq⟩, hprod, hcount, hlen⟩ := DReach_inv cap batches w s h
  refine ⟨hcount, ?_, ?_, ?_⟩
  · intro rest hrest b hmem
    rw [hrest] at hq
    obtain ⟨hbs, k', hk, hq'⟩ := queue_shape_cons_none rest bs k hq
    rw [hq'] at hmem
    have := List.eq_of_mem_replicate hmem
    cases this
  · intro ⟨hp, hqe⟩
    rw [hp, hqe] at hcount
    simpa [countNone, List.countP_nil] using hcount
  · intro s' hstep
    exact ⟨fun i hd => DStep_done_preserved cap s s' hstep i hd,
      fun hne => DStep_pills_change cap s s' hstep hne⟩

/-- Concrete two-step run for the C1 witness: the producer (empty source,
one worker) enqueues its single terminal marker, which the worker then
dequeues and stops. -/
def dw1 : DState Nat := ⟨[], 0, [none], [.idle]⟩

def dw2 : DState Nat := ⟨[], 0, [], [.done]⟩

theorem C1_dispatch_shutdown_witness :
    dw2.pills + countNone dw2.queue + countDone dw2.ws = 1 ∧
    (dw2.pills = 0 ∧ dw2.queue = [] → countDone dw2.ws = 1) := by
  have hr : DReach 1 [] 1 dw2 :=
    Relation.ReflTransGen.tail
      (Relation.ReflTransGen.tail (Relation.ReflTransGen.refl)
        (DStep.pill 0 [] [.idle] (by decide)))
      (DStep.takePill [] 0 [] [.idle] 0 rfl)
  have h := C1_dispatch_shutdown 1 1 [] dw2 hr
  exact ⟨h.1, h.2.2.1⟩

/-! ## C8: idempotence of `clean_tweet_text`

The claim is false on the code: removing `'@'` can create a URL that only
the *next* cleaning pass removes (e.g. `"ht@tps://x"`), and the final
`[:1000]` truncation can cut exactly after a space that the next pass's
`strip()` removes.  Below: the counterexample, and the amended statement —
idempotence whenever the cleaned text contains no `https?://\S+` match and
does not end in whitespace. -/

theorem removeUrlsF_no_url :
    ∀ (fuel : Nat) (l : List Char), hasUrl l = false → removeUrlsF fuel l = l
  | 0, l, _ => by cases l <;> rfl
  | _ + 1, [], _ => rfl
  | fuel + 1, c :: cs, h => by
    unfold hasUrl at h
    rw [Bool.or_eq_false_iff] at h
    obtain ⟨h1, h2⟩ := h
    have hn : urlRest (c :: cs) = none :=
      Option.not_isSome_iff_eq_none.mp (by rw [h1]; exact Bool.false_ne_true)
    simp only [removeUrlsF, hn]
    rw [removeUrlsF_no_url fuel cs h2]

theorem removeUrls_no_url (l : List Char) (h : hasUrl l = false) :
    removeUrls l = l :=
  removeUrlsF_no_url l.length l h

/-- Characters emitted by the whitespace collapse: a space, or a
non-whitespace character of the input. -/
theorem collapseWs_mem :
    ∀ (l : List Char) (d : Char), d ∈ collapseWs l → d = ' ' ∨ (d ∈ l ∧ isSp d = false)
  | [], d, h => absurd h (List.not_mem_nil d)
  | [c], d, h => by
    by_cases hc : isSp c
    · rw [collapseWs, if_pos hc] at h
      rcases List.mem_singleton.mp h with rfl
      exact Or.inl rfl
    · rw [collapseWs, if_neg hc] at h
      rcases List.mem_singleton.mp h with rfl
      exact Or.inr ⟨List.mem_singleton_self d, by simpa using hc⟩
  | c :: d' :: cs, d, h => by
    by_cases hc : isSp c
    · rw [collapseWs, if_pos hc] at h
      by_cases hd' : isSp d'
      · rw [if_pos hd'] at h
        rcases collapseWs_mem (d' :: cs) d h with h | ⟨hm, hs⟩
        · exact Or.inl h
        · exact Or.inr ⟨List.mem_cons_of_mem c hm, hs⟩
      · rw [if_neg hd'] at h
        rcases List.mem_cons.mp h with rfl | h
        · exact Or.inl rfl
        · rcases collapseWs_mem (d' :: cs) d h with h | ⟨hm, hs⟩
          · exact Or.inl h
          · exact Or.inr ⟨List.mem_cons_of_mem c hm, hs⟩
    · rw [collapseWs, if_neg hc] at h
      rcases List.mem_cons.mp h with rfl | h
      · exact Or.inr ⟨List.mem_cons_self d _, by simpa using hc⟩
      · rcases collapseWs_mem (d' :: cs) d h with h | ⟨hm, hs⟩
        · exact Or.inl h
        · exact Or.inr ⟨List.mem_cons_of_mem c hm, hs⟩

theorem collapseWs_cons_not_sp (d : Char) (cs : List Char) (hd : isSp d = false) :
    collapseWs (d :: cs) = d :: collapseWs cs := by
  cases cs <;> simp [collapseWs, hd]

/-- No two adjacent whitespace characters survive the collapse. -/
theorem collapseWs_chain :
    ∀ l : List Char,
      List.Chain' (fun a b => ¬(isSp a = true ∧ isSp b = true)) (collapseWs l)
  | [] => List.chain'_nil
  | [c] => by
    by_cases hc : isSp c
    · rw [collapseWs, if_pos hc]; exact List.chain'_singleton _
    · rw [collapseWs, if_neg hc]; exact List.chain'_singleton _
  | c :: d' :: cs => by
    by_cases hc : isSp c
    · rw [collapseWs, if_pos hc]
      by_cases hd' : isSp d'
      · rw [if_pos hd']
        exact collapseWs_chain (d' :: cs)
      · rw [if_neg hd']
        rw [List.chain'_cons']
        refine ⟨?_, collapseWs_chain (d' :: cs)⟩
        intro y hy
        rw [collapseWs_cons_not_sp d' cs (by simpa using hd'), List.head?_cons,
          Option.mem_def, Option.some.injEq] at hy
        subst hy
        simp [hd']
    · rw [collapseWs, if_neg hc]
      rw [List.chain'_cons']
      refine ⟨?_, collapseWs_chain (d' :: cs)⟩
      intro y _
      simp [hc]

/-- The collapse is the identity on text whose whitespace is already
single spaces with no two adjacent. -/
theorem collapseWs_eq_self :
    ∀ l : List Char,
      (∀ d ∈ l, isSp d = true → d = ' ') →
      List.Chain' (fun a b => ¬(isSp a = true ∧ isSp b = true)) l →
      collapseWs l = l
  | [], _, _ => rfl
  | [c], hmem, _ => by
    by_cases hc : isSp c
    · rw [collapseWs, if_pos hc, hmem c (List.mem_singleton_self c) hc]
    · rw [collapseWs, if_neg hc]
  | c :: d' :: cs, hmem, hch => by
    rw [List.chain'_cons'] at hch
    obtain ⟨hR, hch'⟩ := hch
    have hrec : collapseWs (d' :: cs) = d' :: cs :=
      collapseWs_eq_self (d' :: cs) (fun d hd => hmem d (List.mem_cons_of_mem c hd)) hch'
    by_cases hc : isSp c
    · have hd' : isSp d' = false := by
        have := hR d' (by rw [List.head?_cons]; rfl)
        by_contra hcon
        exact this ⟨hc, by simpa using hcon⟩
      rw [collapseWs, if_pos hc, if_neg (by simp [hd']), hrec,
        hmem c (List.mem_cons_self c _) hc]
    · rw [collapseWs, if_neg hc, hrec]

theorem head?_eq_of_pre_ne_nil {l₁ l₂ : List α} (h : l₁ <+: l₂) (hne : l₁ ≠ []) :
    l₂.head? = l₁.head? := by
  obtain ⟨t, rfl⟩ := h
  cases l₁ with
  | nil => exact absurd rfl hne
  | cons a l => rfl

theorem head?_dropWhile (p : α → Bool) (l : List α) :
    ∀ d, (l.dropWhile p).head? = some d → p d = false := by
  induction l with
  | nil => intro d h; cases h
  | cons a l ih =>
    intro d h
    rw [List.dropWhile_cons] at h
    split at h
    · exact ih d h
    · rename_i hp
      rw [List.head?_cons, Option.some.injEq] at h
      subst h
      simpa using hp

theorem stripWs_subset (l : List Char) : stripWs l ⊆ l :=
  fun _ h =>
    (List.dropWhile_suffix isSp).subset (( List.rdropWhile_prefix _ _).subset h)

theorem stripWs_chain {R : Char → Char → Prop} (l : List Char)
    (h : List.Chain' R l) : List.Chain' R (stripWs l) :=
  List.Chain'.prefix (h.suffix (List.dropWhile_suffix isSp)) ( List.rdropWhile_prefix _ _)

theorem head_stripWs (l : List Char) (d : Char)
    (h : (stripWs l).head? = some d) : isSp d = false := by
  unfold stripWs at h
  have hne : (List.dropWhile isSp l).rdropWhile isSp ≠ [] := by
    intro he; rw [he] at h; cases h
  have := head?_eq_of_pre_ne_nil ( List.rdropWhile_prefix isSp (List.dropWhile isSp l)) hne
  rw [h] at this
  exact head?_dropWhile isSp l d this

theorem head?_take_pos (l : List α) (n : Nat) (hn : 0 < n) :
    (l.take n).head? = l.head? := by
  cases l with
  | nil => simp
  | cons a l =>
    obtain ⟨m, rfl⟩ : ∃ m, n = m + 1 := ⟨n - 1, by omega⟩
    rfl

theorem stripWs_eq_self (c : List Char)
    (hhead : ∀ d, c.head? = some d → isSp d = false)
    (hlast : endsSp c = false) : stripWs c = c := by
  unfold stripWs
  have hdw : c.dropWhile isSp = c := by
    cases c with
    | nil => rfl
    | cons e c' =>
      have hf := hhead e rfl
      rw [List.dropWhile_cons, if_neg (by simp [hf])]
  rw [hdw, List.rdropWhile_eq_self_iff]
  intro hl hp
  have hx : endsSp c = true := by
    rw [endsSp, List.getLast?_eq_getLast c hl]
    exact hp
  rw [hlast] at hx
  cases hx

/-- Structural facts about any cleaned text: its whitespace characters are
all `' '` with no two adjacent, it contains neither `'@'` nor `'#'`, its
first character is not whitespace, and it fits in 1000 characters. -/
theorem clean_shape (t : List Char) :
    (∀ d ∈ clean_tweet_text t, isSp d = true → d = ' ') ∧
    (∀ d ∈ clean_tweet_text t, d ≠ '@' ∧ d ≠ '#') ∧
    List.Chain' (fun a b => ¬(isSp a = true ∧ isSp b = true)) (clean_tweet_text t) ∧
    (∀ d, (clean_tweet_text t).head? = some d → isSp d = false) := by
  by_cases ht : t = []
  · rw [clean_tweet_text, if_pos ht]
    exact ⟨fun d hd => absurd hd (List.not_mem_nil d),
      fun d hd => absurd hd (List.not_mem_nil d),
      List.chain'_nil, fun d hd => by cases hd⟩
  · rw [clean_tweet_text, if_neg ht]
    set y := stripAtHash (removeUrls t) with hy
    have hmem_take : ∀ d : Char,
        d ∈ (stripWs (collapseWs y)).take 1000 → d ∈ collapseWs y := fun d hd =>
      stripWs_subset _ (List.take_subset 1000 _ hd)
    refine ⟨?_, ?_, ?_, ?_⟩
    · intro d hd hsp
      rcases collapseWs_mem y d (hmem_take d hd) with h | ⟨_, hs⟩
      · exact h
      · rw [hsp] at hs; cases hs
    · intro d hd
      rcases collapseWs_mem y d (hmem_take d hd) with rfl | ⟨hm, _⟩
      · exact ⟨by decide, by decide⟩
      · have := List.mem_filter.mp hm
        have hpred := this.2
        rw [Bool.and_eq_true, decide_eq_true_iff, decide_eq_true_iff] at hpred
        exact hpred
    · exact List.Chain'.prefix (stripWs_chain _ (collapseWs_chain y)) ( List.take_prefix 1000 _)
    · intro d hd
      rw [head?_take_pos _ 1000 (by omega)] at hd
      exact head_stripWs (collapseWs y) d hd

/-- The 1200-character input `"a a a ... a "` whose cleaned form is cut by
`[:1000]` right after a space. -/
def truncInput : List Char := (List.replicate 600 ['a', ' ']).flatten

set_option maxRecDepth 10000

/-- C8 counterexample: cleaning is not idempotent, in two independent ways.
In `"ht@tps://x"` the URL-removal pass finds no match, but deleting the
`'@'` afterwards leaves `"https://x"`, which a second cleaning pass removes
entirely.  And on `truncInput` the `[:1000]` truncation leaves a trailing
space that the second pass's `strip()` removes. -/
theorem C8_clean_not_idempotent :
    (clean_tweet_text (clean_tweet_text ("ht@tps://x".toList)) ≠
      clean_tweet_text ("ht@tps://x".toList)) ∧
    (clean_tweet_text (clean_tweet_text truncInput) ≠ clean_tweet_text truncInput) :=
  ⟨by decide, by decide⟩

/-- C8 amended: `clean_tweet_text` is idempotent on every input whose
cleaned text contains no match of `https?://\S+` and does not end in a
whitespace character (the two failure modes exhibited by the
counterexample family). -/
theorem C8_clean_idempotent_amended (t : List Char)
    (hurl : hasUrl (clean_tweet_text t) = false)
    (hend : endsSp (clean_tweet_text t) = false) :
    clean_tweet_text (clean_tweet_text t) = clean_tweet_text t := by
  obtain ⟨hsp, hath, hch, hhead⟩ := clean_shape t
  set c := clean_tweet_text t with hc
  by_cases hce : c = []
  · rw [hce]; rfl
  · rw [clean_tweet_text, if_neg hce]
    have h1 : removeUrls c = c := removeUrls_no_url c hurl
    rw [h1]
    have h2 : stripAtHash c = c := by
      rw [stripAtHash, List.filter_eq_self]
      intro d hd
      obtain ⟨ha, hh⟩ := hath d hd
      simp [ha, hh]
    rw [h2]
    have h3 : collapseWs c = c := collapseWs_eq_self c hsp hch
    rw [h3]
    have h4 : stripWs c = c := stripWs_eq_self c hhead hend
    rw [h4]
    exact List.take_of_length_le (by rw [hc]; exact clean_tweet_text_length_le t)

theorem C8_clean_idempotent_amended_witness :
    clean_tweet_text (clean_tweet_text ("he@llo   world".toList)) =
      clean_tweet_text ("he@llo   world".toList) :=
  C8_clean_idempotent_amended ("he@llo   world".toList) (by decide) (by decide)

/-! ## Helper lemmas for the 95th percentile (C9) -/

theorem sortQ_sorted (l : List ℚ) : List.Sorted (· ≤ ·) (sortQ l) :=
  List.sorted_insertionSort _ l

theorem sortQ_perm (l : List ℚ) : (sortQ l).Perm l :=
  List.perm_insertionSort _ l

theorem sortQ_length (l : List ℚ) : (sortQ l).length = l.length :=
  (sortQ_perm l).length_eq

theorem sortQ_append_singleton (l : List ℚ) (v : ℚ) :
    sortQ (l ++ [v]) = (sortQ l).orderedInsert (· ≤ ·) v := by
  refine List.eq_of_perm_of_sorted ?_ (sortQ_sorted _)
    ((sortQ_sorted l).orderedInsert v _)
  exact ((sortQ_perm _).trans ((List.perm_append_singleton v l).trans
    ((sortQ_perm l).symm.cons v))).trans (List.perm_orderedInsert _ v _).symm

theorem getD_eq_getElem_of_lt (l : List α) (i : Nat) (d : α) (h : i < l.length) :
    l.getD i d = l.get ⟨i, h⟩ := by
  rw [List.getD_eq_getElem?_getD, List.getElem?_eq_getElem h, Option.getD_some]
  exact (List.get_eq_getElem l ⟨i, h⟩).symm

theorem getD_eq_default_of_le (l : List α) (i : Nat) (d : α) (h : l.length ≤ i) :
    l.getD i d = d := by
  rw [List.getD_eq_getElem?_getD, List.getElem?_eq_none h, Option.getD_none]

/-- Entries of a sorted list of rationals are monotone in the index
(through `getD` at in-range indices). -/
theorem sorted_getD_mono (s : List ℚ) (hs : List.Sorted (· ≤ ·) s) (i i' : Nat)
    (d d' : ℚ) (hii : i ≤ i') (hlt : i' < s.length) :
    s.getD i d ≤ s.getD i' d' := by
  rw [getD_eq_getElem_of_lt s i d (by omega), getD_eq_getElem_of_lt s i' d' hlt]
  rcases Nat.eq_or_lt_of_le hii with rfl | h
  · exact le_rfl
  · exact List.pairwise_iff_getElem.mp hs i i' (by omega) hlt h

/-- Index-wise description of `orderedInsert` on a sorted list: writing `j`
for the insertion position, entries below `j` are unchanged, the entry at
`j` is the inserted value, and entries above `j` are the original entries
shifted up by one. -/
theorem orderedInsert_getD (s : List ℚ) (v : ℚ) :
    (s.takeWhile (fun b => ¬v ≤ b)).length ≤ s.length ∧
    (∀ i d, i < (s.takeWhile (fun b => ¬v ≤ b)).length →
      (s.orderedInsert (· ≤ ·) v).getD i d = s.getD i d) ∧
    (∀ d, (s.orderedInsert (· ≤ ·) v).getD (s.takeWhile (fun b => ¬v ≤ b)).length d = v) ∧
    (∀ i d, (s.takeWhile (fun b => ¬v ≤ b)).length < i →
      (s.orderedInsert (· ≤ ·) v).getD i d = s.getD (i - 1) d) ∧
    ((s.takeWhile (fun b => ¬v ≤ b)).length < s.length →
      v ≤ s.getD (s.takeWhile (fun b => ¬v ≤ b)).length 0) := by
  have hsplit := List.orderedInsert_eq_take_drop (· ≤ ·) v s
  have htd := List.takeWhile_append_dropWhile (p := fun b => decide ¬(v ≤ b)) (l := s)
  set tw := s.takeWhile (fun b => ¬v ≤ b) with htw
  set dw := s.dropWhile (fun b => ¬v ≤ b) with hdw
  set j := tw.length with hj
  have hjle : j ≤ s.length := by
    conv_rhs => rw [← htd]
    rw [List.length_append]
    omega
  refine ⟨hjle, ?_, ?_, ?_, ?_⟩
  · intro i d hi
    rw [hsplit, List.getD_eq_getElem?_getD, List.getElem?_append_left hi]
    conv_rhs => rw [← htd]
    rw [List.getD_eq_getElem?_getD, List.getElem?_append_left hi]
  · intro d
    rw [hsplit, List.getD_eq_getElem?_getD, List.getElem?_append_right le_rfl,
      Nat.sub_self, List.getElem?_cons_zero, Option.getD_some]
  · intro i d hi
    rw [hsplit, List.getD_eq_getElem?_getD,
      List.getElem?_append_right (by omega : tw.length ≤ i)]
    conv_rhs => rw [← htd]
    rw [List.getD_eq_getElem?_getD,
      List.getElem?_append_right (by omega : tw.length ≤ i - 1)]
    have hidx : i - tw.length = (i - 1 - tw.length) + 1 := by omega
    rw [hidx, List.getElem?_cons_succ]
  · intro hlt
    have hdne : dw ≠ [] := by
      intro hemp
      rw [← htd, hemp, List.append_nil] at hlt
      exact lt_irrefl _ hlt
    obtain ⟨w, dw', hwd⟩ := List.exists_cons_of_ne_nil hdne
    have hw : (decide ¬(v ≤ w)) = false := by
      have h := List.head?_dropWhile_not (fun b => decide ¬(v ≤ b)) s
      rw [← hdw, hwd] at h
      simpa using h
    have hvw : v ≤ w := by simpa using hw
    have : s.getD j 0 = w := by
      conv_lhs => rw [← htd]
      rw [List.getD_eq_getElem?_getD, List.getElem?_append_right le_rfl, Nat.sub_self,
        hwd, List.getElem?_cons_zero, Option.getD_some]
    rw [this]
    exact hvw

theorem convex_lb (g a x y : ℚ) (h0 : 0 ≤ g) (h1 : g ≤ 1) (hx : a ≤ x) (hy : a ≤ y) :
    a ≤ (1 - g) * x + g * y := by nlinarith

/-- Same sample multiset, same reported percentile. -/
theorem np_percentile95_perm (l₁ l₂ : List ℚ) (h : l₁.Perm l₂) :
    np_percentile95 l₁ = np_percentile95 l₂ := by
  have hlen : l₁.length = l₂.length := h.length_eq
  have hsort : sortQ l₁ = sortQ l₂ :=
    List.eq_of_perm_of_sorted ((sortQ_perm l₁).trans (h.trans (sortQ_perm l₂).symm))
      (sortQ_sorted l₁) (sortQ_sorted l₂)
  rw [np_percentile95, np_percentile95, hlen, hsort]

/-- Appending a sample strictly above the current p95 cannot lower the p95. -/
theorem np_percentile95_append_ge (l : List ℚ) (v : ℚ) (hne : l ≠ [])
    (hv : np_percentile95 l < v) :
    np_percentile95 l ≤ np_percentile95 (l ++ [v]) := by
  have hn1 : 0 < l.length := List.length_pos.mpr hne
  obtain ⟨hjle, hg1, hg2, hg3, hg4⟩ := orderedInsert_getD (sortQ l) v
  set s := sortQ l with hs
  set n := l.length with hn
  have hslen : s.length = n := sortQ_length l
  have hsorted : List.Sorted (· ≤ ·) s := sortQ_sorted l
  set j := (s.takeWhile (fun b => ¬v ≤ b)).length with hj
  set k := 95 * (n - 1) / 100 with hk
  set r := 95 * (n - 1) % 100 with hrdef
  have hdm := Nat.div_add_mod (95 * (n - 1)) 100
  have hrlt : r < 100 := Nat.mod_lt _ (by omega)
  have hr5 : r % 5 = 0 := by
    rw [hrdef, Nat.mod_mod_of_dvd _ (by norm_num : (5 : ℕ) ∣ 100),
      show 95 * (n - 1) = 5 * (19 * (n - 1)) by ring, Nat.mul_mod_right]
  have hkn : k ≤ n - 1 := by
    rw [hk]
    calc 95 * (n - 1) / 100 ≤ 95 * (n - 1) / 95 :=
          Nat.div_le_div_left (by omega) (by omega)
      _ = n - 1 := Nat.mul_div_cancel_left _ (by omega)
  have hklt : k < n := by omega
  have hjn : j ≤ n := by rw [← hslen]; exact hjle
  have hr0le : (0 : ℚ) ≤ (r : ℚ) / 100 := by positivity
  have hr1le : (r : ℚ) / 100 ≤ 1 := by
    rw [div_le_one (by norm_num)]
    exact_mod_cast le_of_lt hrlt
  have hA : np_percentile95 l =
      (1 - (r : ℚ) / 100) * s.getD k 0 + ((r : ℚ) / 100) * s.getD (k + 1) (s.getD k 0) := by
    rw [np_percentile95, if_neg (by omega)]
  have hXk : s.getD k 0 ≤ s.getD (k + 1) (s.getD k 0) := by
    rcases lt_or_ge (k + 1) n with h | h
    · exact sorted_getD_mono s hsorted k (k + 1) 0 _ (by omega) (by omega)
    · rw [getD_eq_default_of_le s (k + 1) _ (by omega)]
  have hAk : s.getD k 0 ≤ np_percentile95 l := by
    rw [hA]; nlinarith [hXk]
  have hAup : ∀ d : ℚ, k + 1 < n → np_percentile95 l ≤ s.getD (k + 1) d := by
    intro d hlt
    have he : s.getD (k + 1) (s.getD k 0) = s.getD (k + 1) d := by
      rw [getD_eq_getElem_of_lt s _ _ (by omega), getD_eq_getElem_of_lt s _ _ (by omega)]
    have hsk : s.getD k 0 ≤ s.getD (k + 1) d :=
      sorted_getD_mono s hsorted k (k + 1) 0 d (by omega) (by omega)
    rw [hA, he]
    nlinarith
  have hjk : k + 1 ≤ j := by
    by_contra hc
    push_neg at hc
    have h1 : v ≤ s.getD j 0 := hg4 (by omega)
    have h2 : s.getD j 0 ≤ s.getD k 0 :=
      sorted_getD_mono s hsorted j k 0 0 (by omega) (by omega)
    exact absurd hv (not_lt.mpr (le_trans h1 (le_trans h2 hAk)))
  have hvA : np_percentile95 l ≤ v := le_of_lt hv
  have hlen' : (l ++ [v]).length = n + 1 := by
    rw [List.length_append, List.length_singleton]
  have hs' : sortQ (l ++ [v]) = s.orderedInsert (· ≤ ·) v := sortQ_append_singleton l v
  have hB : np_percentile95 (l ++ [v]) =
      (1 - ((95 * n % 100 : Nat) : ℚ) / 100) *
          (s.orderedInsert (· ≤ ·) v).getD (95 * n / 100) 0 +
        (((95 * n % 100 : Nat) : ℚ) / 100) *
          (s.orderedInsert (· ≤ ·) v).getD (95 * n / 100 + 1)
            ((s.orderedInsert (· ≤ ·) v).getD (95 * n / 100) 0) := by
    rw [np_percentile95, if_neg (by rw [hlen']; omega), hlen', hs']
    simp only [Nat.add_sub_cancel]
  have hsplit95 : 95 * n = 95 * (n - 1) + 95 := by
    have hn' : n - 1 + 1 = n := by omega
    calc 95 * n = 95 * ((n - 1) + 1) := by rw [hn']
      _ = 95 * (n - 1) + 95 := by ring
  have h95 : 95 * n = 100 * k + r + 95 := by omega
  have hcm1 : k * 100 = 100 * k := Nat.mul_comm _ _
  have hcm2 : (k + 1) * 100 = 100 * k + 100 := by ring
  have hcm3 : (k + 2) * 100 = 100 * k + 200 := by ring
  rcases Nat.eq_zero_or_pos r with hr0 | hrpos
  · -- r = 0 : interpolation index stays at k
    have hk' : 95 * n / 100 = k := Nat.div_eq_of_lt_le (by omega) (by omega)
    have hr' : 95 * n % 100 = 95 := by omega
    rw [hB, hk', hr']
    have hYk : (s.orderedInsert (· ≤ ·) v).getD k 0 = s.getD k 0 := hg1 k 0 (by omega)
    have hA0 : np_percentile95 l = s.getD k 0 := by
      rw [hA, hr0]
      push_cast
      ring
    rw [hYk]
    rcases Nat.eq_or_lt_of_le hjk with hjeq | hjgt
    · -- the new value lands right above k
      have hZ : (s.orderedInsert (· ≤ ·) v).getD (k + 1) (s.getD k 0) = v := by
        rw [show k + 1 = j from hjeq]
        exact hg2 _
      rw [hZ]
      refine convex_lb _ _ _ _ (by norm_num) (by norm_num) (by rw [hA0]) hvA
    · -- the new value lands strictly higher
      have hZ : (s.orderedInsert (· ≤ ·) v).getD (k + 1) (s.getD k 0) =
          s.getD (k + 1) (s.getD k 0) := hg1 (k + 1) _ (by omega)
      rw [hZ]
      refine convex_lb _ _ _ _ (by norm_num) (by norm_num) (by rw [hA0]) ?_
      exact hAup _ (by omega)
  · -- r ≥ 5 : interpolation index moves up to k+1
    have hr5' : 5 ≤ r := by omega
    have hk' : 95 * n / 100 = k + 1 := Nat.div_eq_of_lt_le (by omega) (by omega)
    have hr' : 95 * n % 100 = r - 5 := by
      have : 95 * n = 100 * (k + 1) + (r - 5) := by omega
      rw [this, Nat.mul_add_mod]
      exact Nat.mod_eq_of_lt (by omega)
    rw [hB, hk', hr']
    have hg0 : (0 : ℚ) ≤ ((r - 5 : Nat) : ℚ) / 100 := by positivity
    have hg1' : ((r - 5 : Nat) : ℚ) / 100 ≤ 1 := by
      rw [div_le_one (by norm_num)]
      have : (r - 5 : Nat) ≤ 100 := by omega
      exact_mod_cast this
    rcases Nat.eq_or_lt_of_le hjk with hjeq | hjgt
    · -- v sits exactly at index k+1 of the new sorted list
      have hY : (s.orderedInsert (· ≤ ·) v).getD (k + 1) 0 = v := by
        rw [show k + 1 = j from hjeq]
        exact hg2 _
      rw [hY]
      rcases lt_or_ge (k + 1) n with hkn1 | hkn1
      · have hZ : (s.orderedInsert (· ≤ ·) v).getD (k + 2) v = s.getD (k + 1) v := by
          refine hg3 (k + 2) v (by omega)
        rw [hZ]
        exact convex_lb _ _ _ _ hg0 hg1' hvA (hAup v hkn1)
      · -- k+1 = n: the shifted entry falls off the end, default = v
        have hkn2 : k + 1 = n := by omega
        have hZ : (s.orderedInsert (· ≤ ·) v).getD (k + 2) v = s.getD (k + 1) v := by
          refine hg3 (k + 2) v (by omega)
        rw [hZ, getD_eq_default_of_le s (k + 1) v (by omega)]
        exact convex_lb _ _ _ _ hg0 hg1' hvA hvA
    · -- v sits at index k+2 or higher
      have hY : (s.orderedInsert (· ≤ ·) v).getD (k + 1) 0 = s.getD (k + 1) 0 :=
        hg1 (k + 1) 0 (by omega)
      rw [hY]
      have hYA : np_percentile95 l ≤ s.getD (k + 1) 0 := hAup 0 (by omega)
      rcases Nat.eq_or_lt_of_le (show k + 2 ≤ j by omega) with hjeq2 | hjgt2
      · have hZ : (s.orderedInsert (· ≤ ·) v).getD (k + 2) (s.getD (k + 1) 0) = v := by
          rw [show k + 2 = j from hjeq2]
          exact hg2 _
        rw [hZ]
        exact convex_lb _ _ _ _ hg0 hg1' hYA hvA
      · have hZ : (s.orderedInsert (· ≤ ·) v).getD (k + 2) (s.getD (k + 1) 0) =
            s.getD (k + 2) (s.getD (k + 1) 0) := hg1 (k + 2) _ (by omega)
        rw [hZ]
        have hZA : np_percentile95 l ≤ s.getD (k + 2) (s.getD (k + 1) 0) := by
          have h1 : s.getD (k + 1) 0 ≤ s.getD (k + 2) (s.getD (k + 1) 0) :=
            sorted_getD_mono s hsorted (k + 1) (k + 2) 0 _ (by omega) (by omega)
          exact le_trans hYA h1
        exact convex_lb _ _ _ _ hg0 hg1' hYA hZA

/-- C9: the 95th-percentile computation (numpy linear interpolation on the
sorted samples, modelled over `ℚ`) is a function of the sample multiset —
permutations of the collected samples give the same value — and appending a
sample strictly above the current p95 never decreases the reported p95. -/
theorem C9_p95_deterministic_monotone :
    (∀ l₁ l₂ : List ℚ, l₁.Perm l₂ → np_percentile95 l₁ = np_percentile95 l₂) ∧
    (∀ (l : List ℚ) (v : ℚ), l ≠ [] → np_percentile95 l < v →
      np_percentile95 l ≤ np_percentile95 (l ++ [v])) :=
  ⟨np_percentile95_perm, np_percentile95_append_ge⟩

theorem C9_p95_deterministic_monotone_witness :
    np_percentile95 [3, 1, 2] = np_percentile95 [1, 2, 3] ∧
    np_percentile95 [1, 2, 3] ≤ np_percentile95 ([1, 2, 3] ++ [4]) :=
  ⟨C9_p95_deterministic_monotone.1 [3, 1, 2] [1, 2, 3] (by decide),
    C9_p95_deterministic_monotone.2 [1, 2, 3] 4 (by simp) (by norm_num [np_percentile95, sortQ, List.insertionSort, List.orderedInsert])⟩

end GemmaEmb

